import Mathlib

/-!
Verification of the DiscretePlanning grid search engine.

The definitions below are a shallow embedding of the repository's Python
sources (`grid_planner.py`, `bfs.py`, `dfs.py`, `best_first_search.py`,
`dijkstra.py`, `astar.py`, `jps.py`).  Cells are integer pairs, the
occupancy array is a function from cells to cell-kind codes, and each
search generator becomes a fuel-indexed recursive function producing the
list of emitted `SearchState` snapshots.  The fuel bounds are chosen large
enough that fuel exhaustion is unreachable (each loop iteration strictly
decreases an explicit potential; see the termination lemmas below), so the
fuel-indexed functions compute exactly the sequences the Python generators
yield.
-/

namespace DiscretePlanning

/-- A grid coordinate `(row, column)`, as in `grid_planner.py` (Python
tuples of unbounded ints). -/
abbrev Cell := ℤ × ℤ

/-- Cell-kind code `FREE = 0` from `grid_planner.py`. -/
def FREE : ℤ := 0
/-- Cell-kind code `OBSTACLE = 1` from `grid_planner.py`. -/
def OBSTACLE : ℤ := 1
/-- Cell-kind code `START = 2` from `grid_planner.py`. -/
def START : ℤ := 2
/-- Cell-kind code `GOAL = 3` from `grid_planner.py`. -/
def GOAL : ℤ := 3

/-- The occupancy grid of `grid_planner.py`'s `Grid` class, together with
the structural invariants its constructor enforces before any search can
run (dimensions at least 2, start and goal in bounds and distinct, and the
start/goal cells marked with their non-obstacle codes). -/
structure Grid where
  rows : ℤ
  cols : ℤ
  start : Cell
  goal : Cell
  kindAt : Cell → ℤ
  rows_ge : 2 ≤ rows
  cols_ge : 2 ≤ cols
  start_in : 0 ≤ start.1 ∧ start.1 < rows ∧ 0 ≤ start.2 ∧ start.2 < cols
  goal_in : 0 ≤ goal.1 ∧ goal.1 < rows ∧ 0 ≤ goal.2 ∧ goal.2 < cols
  start_ne_goal : start ≠ goal
  start_notobst : kindAt start ≠ OBSTACLE
  goal_notobst : kindAt goal ≠ OBSTACLE

/-- The bounds test `0 <= r < rows and 0 <= c < cols` used throughout the
sources. -/
def Grid.inB (g : Grid) (c : Cell) : Bool :=
  decide (0 ≤ c.1) && decide (c.1 < g.rows) && decide (0 ≤ c.2) && decide (c.2 < g.cols)

/-- `jps._walkable`: in bounds and not an obstacle. -/
def walkable (g : Grid) (c : Cell) : Bool :=
  g.inB c && decide (g.kindAt c ≠ OBSTACLE)

/-- The four cardinal offsets, in the order `grid_planner.Grid.neighbours`
iterates them. -/
def dirs4 : List Cell := [(-1, 0), (1, 0), (0, -1), (0, 1)]

/-- The eight offsets, in the order `grid_planner.Grid.neighbours8` (and
`jps._identify_successors` for a parentless node) iterates them. -/
def dirs8 : List Cell := [(-1, 0), (1, 0), (0, -1), (0, 1), (-1, -1), (-1, 1), (1, -1), (1, 1)]

/-- `grid_planner.Grid.neighbours`: walkable 4-connected neighbours. -/
def Grid.neighbours (g : Grid) (cell : Cell) : List Cell :=
  dirs4.filterMap fun d =>
    let n : Cell := (cell.1 + d.1, cell.2 + d.2)
    if g.inB n && decide (g.kindAt n ≠ OBSTACLE) then some n else none

/-- `grid_planner.Grid.neighbours8`: walkable 8-connected neighbours, a
diagonal being allowed only when both flanking cardinal cells are free. -/
def Grid.neighbours8 (g : Grid) (cell : Cell) : List Cell :=
  dirs8.filterMap fun d =>
    let n : Cell := (cell.1 + d.1, cell.2 + d.2)
    if g.inB n then
      if g.kindAt n = OBSTACLE then none
      else if d.1 ≠ 0 ∧ d.2 ≠ 0 then
        if g.kindAt (cell.1 + d.1, cell.2) = OBSTACLE ∨ g.kindAt (cell.1, cell.2 + d.2) = OBSTACLE
        then none else some n
      else some n
    else none

/-- `grid_planner.Grid.is_free`. -/
def Grid.is_free (g : Grid) (r c : ℤ) : Bool :=
  decide (g.kindAt (r, c) ≠ OBSTACLE)

/-- One snapshot of a running search, as in `visualiser.SearchState`.
`visited` and `frontier` are Python sets, modelled as finite sets. -/
structure SearchState where
  current : Option Cell
  visited : Finset Cell
  frontier : Finset Cell
  path : Option (List Cell)
deriving DecidableEq

/-- First-match association-list lookup; models Python dict lookup (all
the dicts in the sources are updated by prepending a fresh binding, so the
first match is the current value). -/
def alookup {β : Type} (m : List (Cell × β)) (c : Cell) : Option β :=
  match m with
  | [] => none
  | (k, v) :: rest => if k = c then some v else alookup rest c

/-- The predecessor walk of `_reconstruct` (identical in `bfs.py`,
`dfs.py`, `best_first_search.py`, `dijkstra.py`, `astar.py`, and the chain
part of `jps._build_full_path`): follow `came_from` from the goal until a
`None` predecessor, producing the start-to-goal order.  A missing key
(which in Python would be a `KeyError`, unreachable because every cell put
on a queue is first recorded in `came_from`) stops the walk; the fuel
`m.length + 1` cannot be exhausted while the walk stays on distinct keys. -/
def reconstructAux (m : List (Cell × Option Cell)) : ℕ → Option Cell → List Cell → List Cell
  | _, none, acc => acc
  | 0, some _, acc => acc
  | fuel+1, some n, acc => reconstructAux m fuel ((alookup m n).getD none) (n :: acc)

/-- `_reconstruct came_from goal` (shared by the five 4-connected
algorithms). -/
def reconstructPath (m : List (Cell × Option Cell)) (goal : Cell) : List Cell :=
  reconstructAux m (m.length + 1) (some goal) []

/-- An open-list entry `(priority, insertion counter, cell)` as pushed by
`heapq.heappush` in the sources. -/
abbrev Entry := ℕ × ℕ × Cell

/-- Lexicographic comparison on `(priority, counter)`; since counters are
unique, this is exactly the order in which `heapq.heappop` yields the
entries. -/
def entryLE (a b : Entry) : Bool :=
  decide (a.1 < b.1) || (decide (a.1 = b.1) && decide (a.2.1 ≤ b.2.1))

/-- Extract the minimum entry under `entryLE` (the entry `heapq.heappop`
returns) and the remaining entries. -/
def popMin : List Entry → Option (Entry × List Entry)
  | [] => none
  | e :: es =>
    match popMin es with
    | none => some (e, [])
    | some (m, rest) => if entryLE e m then some (e, es) else some (m, e :: rest)

/-- Manhattan distance, the `_heuristic` of `astar.py` and
`best_first_search.py`. -/
def manhattan (a b : Cell) : ℕ := (a.1 - b.1).natAbs + (a.2 - b.2).natAbs

/-- Chebyshev distance, the `_heuristic` of `jps.py`. -/
def chebyshev (a b : Cell) : ℕ := max (a.1 - b.1).natAbs (a.2 - b.2).natAbs

/-- `jps._octile_dist` (same value as the Chebyshev heuristic). -/
def octileDist (a b : Cell) : ℕ := max (a.1 - b.1).natAbs (a.2 - b.2).natAbs

/-- The last `path` carried by any snapshot: this is how the convenience
wrappers (`bfs`, `dfs`, ..., `jps`) drive their generator and keep the
final path. -/
def finalPath (l : List SearchState) : Option (List Cell) :=
  (l.filterMap fun s => s.path).getLast?

/-- Fuel that strictly exceeds the number of iterations any of the six
loops can make on `g` (each iteration pops one entry; at most `1 + 8·N`
entries are ever pushed, where `N = rows·cols`). -/
def fuelBound (g : Grid) : ℕ := 9 * (g.rows * g.cols).toNat + 2

/-! ### BFS and DFS (`bfs.py`, `dfs.py`) -/

/-- Loop state of `bfs_gen`/`dfs_gen`: the pending queue (head = next cell
to pop), the `came_from` map and the visited set. -/
structure QueueState where
  queue : List Cell
  came_from : List (Cell × Option Cell)
  visited : Finset Cell

/-- `queue.append` for BFS (`lifo = false`) and `stack.append` for DFS
(`lifo = true`, the head of the list being the top of the stack). -/
def queuePush (lifo : Bool) (q : List Cell) (n : Cell) : List Cell :=
  if lifo then n :: q else q ++ [n]

/-- The neighbour loop of `bfs_gen`/`dfs_gen`: enqueue every 4-connected
neighbour not yet in `came_from`, recording its predecessor. -/
def queueExpand (g : Grid) (lifo : Bool) (current : Cell)
    (qc : List Cell × List (Cell × Option Cell)) : List Cell × List (Cell × Option Cell) :=
  (g.neighbours current).foldl
    (fun qc n =>
      if (alookup qc.2 n).isSome then qc
      else (queuePush lifo qc.1 n, (n, some current) :: qc.2)) qc

/-- The main loop shared by `bfs_gen` (`lifo = false`) and `dfs_gen`
(`lifo = true`): pop, mark visited, emit a snapshot, stop with the
reconstructed path at the goal, otherwise expand and continue; emit the
failure snapshot when the queue empties. -/
def queueLoop (g : Grid) (lifo : Bool) : ℕ → QueueState → List SearchState
  | 0, _ => []
  | fuel+1, s =>
    match s.queue with
    | [] => [⟨none, s.visited, ∅, none⟩]
    | current :: rest =>
      let visited' := insert current s.visited
      let frontier := rest.toFinset
      if current = g.goal then
        [⟨some current, visited', frontier, none⟩,
         ⟨some current, visited', frontier, some (reconstructPath s.came_from g.goal)⟩]
      else
        let qc := queueExpand g lifo current (rest, s.came_from)
        ⟨some current, visited', frontier, none⟩ :: queueLoop g lifo fuel ⟨qc.1, qc.2, visited'⟩

/-- `bfs.bfs_gen`. -/
def bfs_gen (g : Grid) : List SearchState :=
  queueLoop g false (fuelBound g) ⟨[g.start], [(g.start, none)], ∅⟩

/-- `dfs.dfs_gen`. -/
def dfs_gen (g : Grid) : List SearchState :=
  queueLoop g true (fuelBound g) ⟨[g.start], [(g.start, none)], ∅⟩

/-- `bfs.bfs`. -/
def bfs (g : Grid) : Option (List Cell) := finalPath (bfs_gen g)

/-- `dfs.dfs`. -/
def dfs (g : Grid) : Option (List Cell) := finalPath (dfs_gen g)

/-! ### Greedy best-first search (`best_first_search.py`) -/

/-- Loop state of `best_first_search_gen`. -/
structure GreedyState where
  open_ : List Entry
  came_from : List (Cell × Option Cell)
  counter : ℕ
  visited : Finset Cell
  in_open : Finset Cell

/-- The neighbour loop of `best_first_search_gen`: push every 4-connected
neighbour not yet in `came_from` with its Manhattan priority and a fresh
counter. -/
def greedyExpand (g : Grid) (current : Cell) (s : GreedyState) : GreedyState :=
  (g.neighbours current).foldl
    (fun t n =>
      if (alookup t.came_from n).isSome then t
      else
        { t with
          came_from := (n, some current) :: t.came_from,
          counter := t.counter + 1,
          open_ := t.open_ ++ [(manhattan n g.goal, t.counter + 1, n)],
          in_open := insert n t.in_open }) s

/-- The main loop of `best_first_search_gen`. -/
def greedyLoop (g : Grid) : ℕ → GreedyState → List SearchState
  | 0, _ => []
  | fuel+1, s =>
    match popMin s.open_ with
    | none => [⟨none, s.visited, ∅, none⟩]
    | some (e, rest) =>
      let current := e.2.2
      let in_open' := s.in_open.erase current
      let visited' := insert current s.visited
      if current = g.goal then
        [⟨some current, visited', in_open', none⟩,
         ⟨some current, visited', in_open', some (reconstructPath s.came_from g.goal)⟩]
      else
        let s' := greedyExpand g current
          { s with open_ := rest, in_open := in_open', visited := visited' }
        ⟨some current, visited', in_open', none⟩ :: greedyLoop g fuel s'

/-- `best_first_search.best_first_search_gen`. -/
def best_first_search_gen (g : Grid) : List SearchState :=
  greedyLoop g (fuelBound g)
    ⟨[(manhattan g.start g.goal, 0, g.start)], [(g.start, none)], 0, ∅, {g.start}⟩

/-- `best_first_search.best_first_search`. -/
def best_first_search (g : Grid) : Option (List Cell) := finalPath (best_first_search_gen g)

/-! ### The cost-improving heap family (`dijkstra.py`, `astar.py`, `jps.py`)

The three remaining algorithms share one loop shape: pop the minimum
entry, skip it when stale (already closed), close it, emit, stop at the
goal, otherwise push every successor whose tentative cost strictly
improves on its recorded cost.  They differ only in the successor
generator, the edge cost, the heuristic, whether the base cost is the
popped priority (Dijkstra) or the recorded `g_score` (A*, JPS), and the
final path builder; those differences are captured by `HeapAlg`. -/

structure HeapState where
  open_ : List Entry
  dist : List (Cell × ℕ)
  came_from : List (Cell × Option Cell)
  counter : ℕ
  closed : Finset Cell
  in_open : Finset Cell

structure HeapAlg where
  succ : Grid → Cell → List (Cell × Option Cell) → List Cell
  edge : Cell → Cell → ℕ
  hfun : Cell → Cell → ℕ
  baseFromPopped : Bool
  finalize : List (Cell × Option Cell) → Cell → List Cell

/-- `new_dist < dist.get(neighbour, inf)` / `tentative_g <
g_score.get(neighbour, inf)`. -/
def ltDist (m : List (Cell × ℕ)) (c : Cell) (v : ℕ) : Bool :=
  match alookup m c with
  | none => true
  | some w => decide (v < w)

/-- One successor of the heap family's neighbour loop: skip it when
already closed, otherwise record cost and predecessor and push it with a
fresh counter when the tentative cost strictly improves. -/
def heapStep (A : HeapAlg) (g : Grid) (current : Cell) (base : ℕ)
    (t : HeapState) (n : Cell) : HeapState :=
  if n ∈ t.closed then t
  else
    let tentative := base + A.edge current n
    if ltDist t.dist n tentative then
      { t with
        dist := (n, tentative) :: t.dist,
        came_from := (n, some current) :: t.came_from,
        counter := t.counter + 1,
        open_ := t.open_ ++ [(tentative + A.hfun n g.goal, t.counter + 1, n)],
        in_open := insert n t.in_open }
    else t

/-- The successor loop of the heap family. -/
def heapExpand (A : HeapAlg) (g : Grid) (current : Cell) (base : ℕ) (s : HeapState) : HeapState :=
  (A.succ g current s.came_from).foldl (heapStep A g current base) s

/-- The main loop shared by `dijkstra_gen`, `astar_gen` and `jps_gen`. -/
def heapLoop (A : HeapAlg) (g : Grid) : ℕ → HeapState → List SearchState
  | 0, _ => []
  | fuel+1, s =>
    match popMin s.open_ with
    | none => [⟨none, s.closed, ∅, none⟩]
    | some (e, rest) =>
      let current := e.2.2
      if current ∈ s.closed then
        heapLoop A g fuel { s with open_ := rest }
      else
        let closed' := insert current s.closed
        let in_open' := s.in_open.erase current
        if current = g.goal then
          [⟨some current, closed', in_open', none⟩,
           ⟨some current, closed', in_open', some (A.finalize s.came_from g.goal)⟩]
        else
          let base := if A.baseFromPopped then e.1 else (alookup s.dist current).getD 0
          let s' := heapExpand A g current base
            { s with open_ := rest, closed := closed', in_open := in_open' }
          ⟨some current, closed', in_open', none⟩ :: heapLoop A g fuel s'

/-- The common initial state: cost 0 for the start, the start on the open
list with priority `h(start)` and counter 0. -/
def heapInit (A : HeapAlg) (g : Grid) : HeapState :=
  ⟨[(A.hfun g.start g.goal, 0, g.start)], [(g.start, 0)], [(g.start, none)], 0, ∅, {g.start}⟩

/-! ### Jump Point Search helpers (`jps.py`) -/

/-- `jps._sign`: `(x > 0) - (x < 0)`. -/
def sign (x : ℤ) : ℤ := (if 0 < x then 1 else 0) - (if x < 0 then 1 else 0)

/-- Fuel for the recursive jump scan; every nested `_jump` call advances
one step inside the grid, so a chain of calls is shorter than
`rows + cols + 2` and this fuel is never exhausted. -/
def jumpFuel (g : Grid) : ℕ := (g.rows + g.cols).toNat + 2

/-- `jps._jump`: walk direction `(dr, dc)` from `(r, c)`, returning the
first jump point (goal, forced-neighbour cell, or diagonal cell whose
orthogonal scans find one), `none` when blocked or the scan runs off the
grid. -/
def jump (g : Grid) : ℕ → ℤ → ℤ → ℤ → ℤ → Cell → Option Cell
  | 0, _, _, _, _, _ => none
  | fuel+1, r, c, dr, dc, goal =>
    let nr := r + dr
    let nc := c + dc
    if ¬ walkable g (nr, nc) then none
    else if (nr, nc) = goal then some (nr, nc)
    else if dr ≠ 0 ∧ dc ≠ 0 then
      if ¬ walkable g (nr - dr, nc) ∧ walkable g (nr - dr, nc + dc) then some (nr, nc)
      else if ¬ walkable g (nr, nc - dc) ∧ walkable g (nr + dr, nc - dc) then some (nr, nc)
      else if (jump g fuel nr nc dr 0 goal).isSome then some (nr, nc)
      else if (jump g fuel nr nc 0 dc goal).isSome then some (nr, nc)
      else if ¬ (walkable g (nr + dr, nc) ∨ walkable g (nr, nc + dc)) then none
      else jump g fuel nr nc dr dc goal
    else if dr ≠ 0 then
      if (¬ walkable g (nr, nc - 1) ∧ walkable g (nr + dr, nc - 1)) ∨
         (¬ walkable g (nr, nc + 1) ∧ walkable g (nr + dr, nc + 1)) then some (nr, nc)
      else jump g fuel nr nc dr dc goal
    else
      if (¬ walkable g (nr - 1, nc) ∧ walkable g (nr - 1, nc + dc)) ∨
         (¬ walkable g (nr + 1, nc) ∧ walkable g (nr + 1, nc + dc)) then some (nr, nc)
      else jump g fuel nr nc dr dc goal

/-- `jps._pruned_directions`. -/
def prunedDirections (g : Grid) (r c dr dc : ℤ) : List Cell :=
  if dr ≠ 0 ∧ dc ≠ 0 then
    [(dr, dc), (dr, 0), (0, dc)]
      ++ (if ¬ walkable g (r - dr, c) then [(-dr, dc)] else [])
      ++ (if ¬ walkable g (r, c - dc) then [(dr, -dc)] else [])
  else if dr ≠ 0 then
    [(dr, 0)]
      ++ (if ¬ walkable g (r, c - 1) then [(dr, -1)] else [])
      ++ (if ¬ walkable g (r, c + 1) then [(dr, 1)] else [])
  else
    [(0, dc)]
      ++ (if ¬ walkable g (r - 1, c) then [(-1, dc)] else [])
      ++ (if ¬ walkable g (r + 1, c) then [(1, dc)] else [])

/-- `jps._identify_successors`: jump in every pruned direction (all eight
when the node has no parent) and collect the jump points found. -/
def identifySuccessors (g : Grid) (current : Cell)
    (came_from : List (Cell × Option Cell)) (goal : Cell) : List Cell :=
  let dirs :=
    match (alookup came_from current).getD none with
    | some p =>
        prunedDirections g current.1 current.2 (sign (current.1 - p.1)) (sign (current.2 - p.2))
    | none => dirs8
  dirs.filterMap fun d => jump g (jumpFuel g) current.1 current.2 d.1 d.2 goal

/-- The unit-step walk of `jps._build_full_path`'s inner `while` loop:
from `x`, step by the coordinate deltas' signs towards `b` until reaching it.
Each step reduces the Chebyshev distance to `b` by one, so fuel
`chebyshev x b + 1` is never exhausted. -/
def walkSegment (b : Cell) : ℕ → Cell → List Cell
  | 0, _ => []
  | fuel+1, x =>
    if x = b then []
    else
      let x' : Cell := (x.1 + sign (b.1 - x.1), x.2 + sign (b.2 - x.2))
      x' :: walkSegment b fuel x'

/-- `jps._build_full_path`: reconstruct the jump-point chain, then expand
every consecutive pair into explicit unit steps. -/
def buildFullPath (came_from : List (Cell × Option Cell)) (goal : Cell) : List Cell :=
  let jp_chain := reconstructPath came_from goal
  if jp_chain.length ≤ 1 then jp_chain
  else
    match jp_chain with
    | [] => []
    | a :: rest =>
      a :: (List.zip (a :: rest) rest).flatMap fun p =>
        walkSegment p.2 (chebyshev p.1 p.2 + 1) p.1

/-! ### The three heap-family instantiations -/

/-- `dijkstra.dijkstra_gen`'s parameters: 4-connected neighbours, unit
edges, no heuristic, base cost from the popped entry. -/
def dijkstraAlg : HeapAlg :=
  ⟨fun g c _ => g.neighbours c, fun _ _ => 1, fun _ _ => 0, true, reconstructPath⟩

/-- `astar.astar_gen`'s parameters: 4-connected neighbours, unit edges,
Manhattan heuristic, base cost from `g_score[current]`. -/
def astarAlg : HeapAlg :=
  ⟨fun g c _ => g.neighbours c, fun _ _ => 1, manhattan, false, reconstructPath⟩

/-- `jps.jps_gen`'s parameters: pruned jump-point successors, octile edge
cost, Chebyshev heuristic, base cost from `g_score[current]`, full-path
expansion. -/
def jpsAlg : HeapAlg :=
  ⟨fun g c came => identifySuccessors g c came g.goal, octileDist, chebyshev, false, buildFullPath⟩

/-- `dijkstra.dijkstra_gen`. -/
def dijkstra_gen (g : Grid) : List SearchState :=
  heapLoop dijkstraAlg g (fuelBound g) (heapInit dijkstraAlg g)

/-- `astar.astar_gen`. -/
def astar_gen (g : Grid) : List SearchState :=
  heapLoop astarAlg g (fuelBound g) (heapInit astarAlg g)

/-- `jps.jps_gen`. -/
def jps_gen (g : Grid) : List SearchState :=
  heapLoop jpsAlg g (fuelBound g) (heapInit jpsAlg g)

/-- `dijkstra.dijkstra`. -/
def dijkstra (g : Grid) : Option (List Cell) := finalPath (dijkstra_gen g)

/-- `astar.astar`. -/
def astar (g : Grid) : Option (List Cell) := finalPath (astar_gen g)

/-- `jps.jps`. -/
def jps (g : Grid) : Option (List Cell) := finalPath (jps_gen g)

/-- Modelled from the spec: the "reference Dijkstra run over the same
8-connected adjacency" that §8 of the specification compares JPS against.
It is the engine's Dijkstra instantiated with `Grid.neighbours8` (the
corner-cutting-free 8-connected neighbour list) in place of
`Grid.neighbours`; no such runner exists in `src/`. -/
def dijkstra8Alg : HeapAlg :=
  ⟨fun g c _ => g.neighbours8 c, fun _ _ => 1, fun _ _ => 0, true, reconstructPath⟩

/-- Modelled from the spec: driving the reference 8-connected Dijkstra to
completion and keeping the final path. -/
def dijkstra8 (g : Grid) : Option (List Cell) :=
  finalPath (heapLoop dijkstra8Alg g (fuelBound g) (heapInit dijkstra8Alg g))

/-! ### Concrete grids used by the concrete-scenario claims -/

/-- The 2-by-2 grid `Grid(rows=2, cols=2, start=(0,0), goal=(1,1),
obstacle_pct=0.5)`: both non-terminal cells become obstacles. -/
def gridCorner : Grid where
  rows := 2
  cols := 2
  start := (0, 0)
  goal := (1, 1)
  kindAt := fun c =>
    if c = (0, 0) then START else if c = (1, 1) then GOAL else OBSTACLE
  rows_ge := by norm_num
  cols_ge := by norm_num
  start_in := by norm_num
  goal_in := by norm_num
  start_ne_goal := by decide
  start_notobst := by decide
  goal_notobst := by decide

/-- The 5-by-5 obstacle-free grid with start `(0,0)` and goal `(4,4)` of
the spec's concrete scenario. -/
def gridFive : Grid where
  rows := 5
  cols := 5
  start := (0, 0)
  goal := (4, 4)
  kindAt := fun c =>
    if c = (0, 0) then START else if c = (4, 4) then GOAL else FREE
  rows_ge := by norm_num
  cols_ge := by norm_num
  start_in := by norm_num
  goal_in := by norm_num
  start_ne_goal := by decide
  start_notobst := by decide
  goal_notobst := by decide

/-! ### Grid construction (`grid_planner.Grid.__init__`) -/

/-- The row-major enumeration of all cells of a `rows × cols` grid — the
iteration order of the candidate comprehension in `Grid.__init__`. -/
def cellsList (rows cols : ℤ) : List Cell :=
  (List.range rows.toNat).flatMap fun r =>
    (List.range cols.toNat).map fun c : ℕ => (((r : ℕ) : ℤ), ((c : ℕ) : ℤ))

/-- The finite set of in-bounds cells of a grid. -/
def gridCells (g : Grid) : Finset Cell := (cellsList g.rows g.cols).toFinset

/-- The occupancy array `Grid.__init__` builds: a zero array, then
`min(int(total_cells * obstacle_pct), len(candidates))` sampled obstacle
cells (the candidates being every cell except start and goal, in row-major
order), then the start and goal marks, which overwrite last. -/
def mkKind (rows cols : ℤ) (start goal : Cell) (obstacle_pct : ℚ)
    (sample : List Cell → ℕ → List Cell) : Cell → ℤ :=
  let total : ℕ := (rows * cols).toNat
  let n_obstacles : ℕ := (Int.floor ((total : ℚ) * obstacle_pct)).toNat
  let candidates : List Cell :=
    (cellsList rows cols).filter fun c => decide (c ≠ start ∧ c ≠ goal)
  let obstacles : List Cell := sample candidates (min n_obstacles candidates.length)
  fun c =>
    if c = start then START else if c = goal then GOAL
    else if c ∈ obstacles then OBSTACLE else FREE

/-- `Grid.__init__`, modelling `random.Random(seed).sample` by an explicit
`sample` argument (the obstacle claims assume of it only what
`random.sample` guarantees: `k` distinct elements drawn from the candidate
list).  The checks and their order mirror the constructor: dimensions,
obstacle density, start bounds, goal bounds (the goal defaulting to the
bottom-right corner, as in the source), start distinct from goal; then the
occupancy array is built by `mkKind`. -/
def mkGrid (rows cols : ℤ) (start : Cell) (goalOpt : Option Cell) (obstacle_pct : ℚ)
    (sample : List Cell → ℕ → List Cell) : Except String Grid :=
  if h1 : 2 ≤ rows ∧ 2 ≤ cols then
    if h2 : 0 ≤ obstacle_pct ∧ obstacle_pct < 1 then
      if h3 : 0 ≤ start.1 ∧ start.1 < rows ∧ 0 ≤ start.2 ∧ start.2 < cols then
        if h4 : 0 ≤ (goalOpt.getD (rows - 1, cols - 1)).1 ∧
                (goalOpt.getD (rows - 1, cols - 1)).1 < rows ∧
                0 ≤ (goalOpt.getD (rows - 1, cols - 1)).2 ∧
                (goalOpt.getD (rows - 1, cols - 1)).2 < cols then
          if h5 : start = goalOpt.getD (rows - 1, cols - 1) then
            Except.error "Start and goal must be different cells."
          else
            Except.ok
              { rows := rows, cols := cols, start := start,
                goal := goalOpt.getD (rows - 1, cols - 1),
                kindAt := mkKind rows cols start (goalOpt.getD (rows - 1, cols - 1))
                  obstacle_pct sample,
                rows_ge := h1.1, cols_ge := h1.2,
                start_in := h3, goal_in := h4, start_ne_goal := h5,
                start_notobst := by
                  simp [mkKind, START, OBSTACLE]
                goal_notobst := by
                  have hgs : goalOpt.getD (rows - 1, cols - 1) ≠ start := fun h => h5 h.symm
                  simp [mkKind, hgs, GOAL, OBSTACLE] }
        else Except.error "goal cell is out of bounds"
      else Except.error "start cell is out of bounds"
    else Except.error "obstacle_pct must be in [0, 1)."
  else Except.error "Grid must be at least 2x2."

/-- The per-snapshot invariant of claim C9: the visited and frontier sets
are disjoint, and a present `current` is in the visited set. -/
def snapshotOK (st : SearchState) : Prop :=
  st.visited ∩ st.frontier = ∅ ∧ ∀ c, st.current = some c → c ∈ st.visited

/-- Invariant carried through the queue-family neighbour fold: all queued
cells are recorded in `came_from` and distinct, the reference set `V` (the
visited cells) is recorded too, and no queued cell is in `V`. -/
def QInv (V : Finset Cell) (qc : List Cell × List (Cell × Option Cell)) : Prop :=
  (∀ c ∈ qc.1, (alookup qc.2 c).isSome = true) ∧ qc.1.Nodup ∧
  (∀ c ∈ V, (alookup qc.2 c).isSome = true) ∧ (∀ c ∈ qc.1, c ∉ V)

/-- Invariant carried by the greedy best-first loop: every open-list cell,
visited cell and pending cell is recorded in `came_from`, and the pending
set is disjoint from the visited set. -/
def GInv (s : GreedyState) : Prop :=
  (∀ e ∈ s.open_, (alookup s.came_from e.2.2).isSome = true) ∧
  (∀ c ∈ s.visited, (alookup s.came_from c).isSome = true) ∧
  (∀ c ∈ s.in_open, (alookup s.came_from c).isSome = true) ∧
  s.in_open ∩ s.visited = ∅

/-- One 8-connected unit step between walkable cells — the loosest move
any of the six algorithms ever performs (the 4-connected algorithms take a
subset of these steps, and JPS may take any of the eight unit steps onto a
walkable cell). -/
def adjStep (g : Grid) (a b : Cell) : Prop :=
  walkable g a = true ∧ walkable g b = true ∧ (b.1 - a.1, b.2 - a.2) ∈ dirs8

/-- "A sequence of free cells connects start to goal": a chain of
8-connected unit steps through walkable cells. -/
def Connected8 (g : Grid) : Prop :=
  Relation.ReflTransGen (adjStep g) g.start g.goal

/-- The key set of an association list. -/
def keysFinset {β : Type} (m : List (Cell × β)) : Finset Cell :=
  (m.map Prod.fst).toFinset

/-- Termination potential of the queue family: every iteration strictly
decreases it, because each enqueued cell is a fresh in-bounds key of
`came_from`. -/
def queuePot (g : Grid) (s : QueueState) : ℕ :=
  s.queue.length + 9 * ((gridCells g) \ keysFinset s.came_from).card

/-- Termination potential of the greedy loop. -/
def greedyPot (g : Grid) (s : GreedyState) : ℕ :=
  s.open_.length + 9 * ((gridCells g) \ keysFinset s.came_from).card

/-- Termination potential of the heap family: a stale pop shortens the
open list, and a fresh pop closes a new in-bounds cell while pushing at
most eight successors. -/
def heapPot (g : Grid) (s : HeapState) : ℕ :=
  s.open_.length + 9 * ((gridCells g) \ s.closed).card

/-- One 4-connected unit step onto a walkable cell — exactly what
`Grid.neighbours` offers (see `mem_neighbours_iff`). -/
def step4 (g : Grid) (a b : Cell) : Prop :=
  walkable g b = true ∧ (b.1 - a.1, b.2 - a.2) ∈ dirs4

/-- `Reach4 g n c`: a chain of `n` 4-connected unit steps through
walkable cells leads from the start to `c`. -/
inductive Reach4 (g : Grid) : ℕ → Cell → Prop
  | refl : Reach4 g 0 g.start
  | tail {n : ℕ} {a b : Cell} : Reach4 g n a → step4 g a b → Reach4 g (n + 1) b

/-- The predecessor-map discipline shared by the five 4-connected
algorithms, relative to a depth map `dm`: the start is bound to `none` at
depth 0, every other binding records a 4-connected step from its parent
at depth exactly one more, and depths stay below the length of the map
(so `reconstructPath`'s fuel suffices and the predecessor walk reaches
the start). -/
def ChainInv (g : Grid) (came : List (Cell × Option Cell)) (dm : List (Cell × ℕ)) : Prop :=
  alookup came g.start = some none ∧
  alookup dm g.start = some 0 ∧
  (∀ c : Cell, (alookup came c).isSome = true ↔ (alookup dm c).isSome = true) ∧
  (∀ c p : Cell, alookup came c = some (some p) → step4 g p c ∧
    ∃ vc vp, alookup dm c = some vc ∧ alookup dm p = some vp ∧ vc = vp + 1) ∧
  (∀ c : Cell, alookup came c = some none → c = g.start) ∧
  (∀ (c : Cell) (v : ℕ), alookup dm c = some v → v + 1 ≤ came.length)

/-- The master invariant of the unit-edge heap loops (`dijkstra_gen`,
`astar_gen`): the predecessor and cost maps form a certified chain whose
parents are closed, every open entry's cell has a recorded cost bounding
the entry's priority from below (after adding the heuristic), every
unclosed recorded cell has an open entry priced exactly at cost plus
heuristic, closed cells carry minimal costs, and closed cells are fully
relaxed. -/
def HInv (A : HeapAlg) (g : Grid) (s : HeapState) : Prop :=
  ChainInv g s.came_from s.dist ∧
  (∀ c p : Cell, alookup s.came_from c = some (some p) → p ∈ s.closed) ∧
  (∀ e ∈ s.open_, (alookup s.dist e.2.2).isSome = true) ∧
  (∀ e ∈ s.open_, ∀ v : ℕ, alookup s.dist e.2.2 = some v →
    v + A.hfun e.2.2 g.goal ≤ e.1) ∧
  (∀ c : Cell, (alookup s.dist c).isSome = true → c ∉ s.closed →
    ∃ e ∈ s.open_, e.2.2 = c ∧ ∀ v : ℕ, alookup s.dist c = some v →
      e.1 = v + A.hfun c g.goal) ∧
  (∀ c ∈ s.closed, ∃ v : ℕ, alookup s.dist c = some v ∧
    ∀ n : ℕ, Reach4 g n c → v ≤ n) ∧
  (∀ c ∈ s.closed, ∀ w : Cell, step4 g c w → ∃ vw : ℕ, alookup s.dist w = some vw ∧
    ∀ v2 : ℕ, alookup s.dist c = some v2 → vw ≤ v2 + 1)

/-- A 4-by-3 grid whose entire second row is obstacles, disconnecting
start `(0,0)` from goal `(3,2)` even under 8-connected moves. -/
def gridWall : Grid where
  rows := 4
  cols := 3
  start := (0, 0)
  goal := (3, 2)
  kindAt := fun c =>
    if c = (0, 0) then START else if c = (3, 2) then GOAL
    else if c.1 = 1 then OBSTACLE else FREE
  rows_ge := by norm_num
  cols_ge := by norm_num
  start_in := by norm_num
  goal_in := by norm_num
  start_ne_goal := by decide
  start_notobst := by decide
  goal_notobst := by decide

theorem length_cellsList (rows cols : ℤ) :
    (cellsList rows cols).length = rows.toNat * cols.toNat := by
  simp [cellsList, Function.comp_def]

theorem mem_cellsList {rows cols : ℤ} {c : Cell} :
    c ∈ cellsList rows cols ↔ 0 ≤ c.1 ∧ c.1 < rows ∧ 0 ≤ c.2 ∧ c.2 < cols := by
  constructor
  · intro h
    rw [cellsList, List.mem_flatMap] at h
    obtain ⟨r, hr, hmem⟩ := h
    rw [List.mem_map] at hmem
    obtain ⟨c', hc', rfl⟩ := hmem
    rw [List.mem_range] at hr
    rw [List.mem_range] at hc'
    refine ⟨by omega, by simp only [] ; omega, by omega, by simp only [] ; omega⟩
  · rintro ⟨h1, h2, h3, h4⟩
    rw [cellsList, List.mem_flatMap]
    refine ⟨c.1.toNat, by rw [List.mem_range]; omega, ?_⟩
    rw [List.mem_map]
    refine ⟨c.2.toNat, by rw [List.mem_range]; omega, ?_⟩
    have e1 : ((c.1.toNat : ℤ)) = c.1 := Int.toNat_of_nonneg h1
    have e2 : ((c.2.toNat : ℤ)) = c.2 := Int.toNat_of_nonneg h3
    exact Prod.ext e1 e2

theorem nodup_cellsList (rows cols : ℤ) : (cellsList rows cols).Nodup := by
  unfold cellsList
  rw [List.nodup_flatMap]
  refine ⟨fun r _ => ?_, ?_⟩
  · have hinj : Function.Injective (fun c : ℕ => (((r : ℤ), (c : ℤ)) : Cell)) := by
      intro a b h
      simpa using congrArg Prod.snd h
    exact (List.nodup_range cols.toNat).map hinj
  · have hpw : (List.range rows.toNat).Pairwise (· ≠ ·) := List.nodup_range _
    refine hpw.imp ?_
    intro a b hab x hxa hxb
    rw [List.mem_map] at hxa hxb
    obtain ⟨ca, _, rfl⟩ := hxa
    obtain ⟨cb, _, h⟩ := hxb
    have hba : ((b : ℤ)) = ((a : ℤ)) := congrArg Prod.fst h
    exact hab (by exact_mod_cast hba.symm)

/-- Removing two distinct members from a duplicate-free list shortens it
by exactly two. -/
theorem length_filter_ne_two {l : List Cell} (hl : l.Nodup) {a b : Cell}
    (ha : a ∈ l) (hb : b ∈ l) (hab : a ≠ b) :
    (l.filter fun c => decide (c ≠ a ∧ c ≠ b)).length = l.length - 2 := by
  have hfn : (l.filter fun c => decide (c ≠ a ∧ c ≠ b)).Nodup := hl.filter _
  have hcard : (l.filter fun c => decide (c ≠ a ∧ c ≠ b)).toFinset.card =
      (l.filter fun c => decide (c ≠ a ∧ c ≠ b)).length :=
    List.toFinset_card_of_nodup hfn
  have hset : (l.filter fun c => decide (c ≠ a ∧ c ≠ b)).toFinset =
      l.toFinset \ {a, b} := by
    ext c
    simp only [List.mem_toFinset, List.mem_filter, Finset.mem_sdiff, Finset.mem_insert,
      Finset.mem_singleton, decide_eq_true_eq]
    tauto
  have hsub : ({a, b} : Finset Cell) ⊆ l.toFinset := by
    intro x hx
    rw [Finset.mem_insert, Finset.mem_singleton] at hx
    rw [List.mem_toFinset]
    rcases hx with rfl | rfl
    · exact ha
    · exact hb
  calc (l.filter fun c => decide (c ≠ a ∧ c ≠ b)).length
      = (l.toFinset \ {a, b}).card := by rw [← hcard, hset]
    _ = l.toFinset.card - ({a, b} : Finset Cell).card := Finset.card_sdiff hsub
    _ = l.length - 2 := by rw [List.toFinset_card_of_nodup hl, Finset.card_pair hab]

/-! ## Helper lemmas about `popMin` -/

/-- `popMin` returns `none` exactly on the empty open list. -/
theorem popMin_eq_none {l : List Entry} : popMin l = none ↔ l = [] := by
  cases l with
  | nil => simp [popMin]
  | cons e es =>
    simp only [popMin]
    rcases h : popMin es with _ | ⟨m, rest⟩ <;> simp [h]
    split <;> simp

/-- The popped entry together with the remaining list is a permutation of
the open list (hence `heapq.heappop` removes exactly one entry). -/
theorem popMin_perm : ∀ {l : List Entry} {e : Entry} {rest : List Entry},
    popMin l = some (e, rest) → l.Perm (e :: rest) := by
  intro l
  induction l with
  | nil => intro e rest h; simp [popMin] at h
  | cons a es ih =>
    intro e rest h
    simp only [popMin] at h
    rcases hes : popMin es with _ | ⟨⟨m, r⟩⟩
    · rw [hes] at h
      simp only [Option.some.injEq, Prod.mk.injEq] at h
      obtain ⟨rfl, rfl⟩ := h
      have : es = [] := popMin_eq_none.mp hes
      subst this
      exact List.Perm.refl _
    · rw [hes] at h
      dsimp only at h
      by_cases hle : entryLE a m = true
      · rw [if_pos hle] at h
        simp only [Option.some.injEq, Prod.mk.injEq] at h
        obtain ⟨rfl, rfl⟩ := h
        exact List.Perm.refl _
      · rw [if_neg hle] at h
        simp only [Option.some.injEq, Prod.mk.injEq] at h
        obtain ⟨rfl, rfl⟩ := h
        exact ((ih hes).cons a).trans (List.Perm.swap m a r)

/-- Every entry of the remainder was on the open list. -/
theorem popMin_rest_mem {l : List Entry} {e : Entry} {rest : List Entry}
    (h : popMin l = some (e, rest)) : ∀ x ∈ rest, x ∈ l := fun x hx =>
  (popMin_perm h).mem_iff.mpr (List.mem_cons_of_mem _ hx)

/-- The popped entry was on the open list. -/
theorem popMin_self_mem {l : List Entry} {e : Entry} {rest : List Entry}
    (h : popMin l = some (e, rest)) : e ∈ l :=
  (popMin_perm h).mem_iff.mpr (List.mem_cons_self _ _)

/-- Popping shortens the open list by exactly one entry. -/
theorem popMin_length {l : List Entry} {e : Entry} {rest : List Entry}
    (h : popMin l = some (e, rest)) : l.length = rest.length + 1 := by
  simpa using (popMin_perm h).length_eq

/-- The popped entry is minimal: no entry on the list has a smaller
priority, and among entries of equal priority none has a smaller insertion
counter. -/
theorem popMin_minimal : ∀ {l : List Entry} {e : Entry} {rest : List Entry},
    popMin l = some (e, rest) →
    ∀ e' ∈ l, e.1 ≤ e'.1 ∧ (e.1 = e'.1 → e.2.1 ≤ e'.2.1) := by
  intro l
  induction l with
  | nil => intro e rest h; simp [popMin] at h
  | cons a es ih =>
    intro e rest h e' he'
    simp only [popMin] at h
    rcases hes : popMin es with _ | ⟨⟨m, r⟩⟩
    · rw [hes] at h
      simp only [Option.some.injEq, Prod.mk.injEq] at h
      obtain ⟨rfl, rfl⟩ := h
      have : es = [] := popMin_eq_none.mp hes
      subst this
      rcases List.mem_singleton.mp he' with rfl
      exact ⟨le_refl _, fun _ => le_refl _⟩
    · rw [hes] at h
      dsimp only at h
      have hmin := ih hes
      by_cases hle : entryLE a m = true
      · rw [if_pos hle] at h
        simp only [Option.some.injEq, Prod.mk.injEq] at h
        obtain ⟨rfl, rfl⟩ := h
        have ham : a.1 < m.1 ∨ (a.1 = m.1 ∧ a.2.1 ≤ m.2.1) := by
          simpa [entryLE, decide_eq_true_eq] using hle
        rcases List.mem_cons.mp he' with rfl | he's
        · exact ⟨le_refl _, fun _ => le_refl _⟩
        · have hm := hmin e' he's
          rcases ham with h1 | ⟨h1, h2⟩
          · exact ⟨le_of_lt (lt_of_lt_of_le h1 hm.1), fun heq => by omega⟩
          · refine ⟨h1 ▸ hm.1, fun heq => ?_⟩
            have := hm.2 (h1 ▸ heq)
            omega
      · rw [if_neg hle] at h
        simp only [Option.some.injEq, Prod.mk.injEq] at h
        obtain ⟨rfl, rfl⟩ := h
        have ham : ¬ (a.1 < m.1 ∨ (a.1 = m.1 ∧ a.2.1 ≤ m.2.1)) := by
          simpa [entryLE, decide_eq_true_eq] using hle
        push_neg at ham
        rcases List.mem_cons.mp he' with rfl | he's
        · exact ⟨ham.1, fun heq => le_of_lt (ham.2 heq.symm)⟩
        · exact hmin e' he's

/-! ## Snapshot invariants (claim C9) -/

theorem queueFold_inv (g : Grid) (lifo : Bool) (current : Cell) (V : Finset Cell) :
    ∀ (ns : List Cell) (q : List Cell) (m : List (Cell × Option Cell)),
      QInv V (q, m) →
      QInv V (ns.foldl (fun qc n => if (alookup qc.2 n).isSome then qc
        else (queuePush lifo qc.1 n, (n, some current) :: qc.2)) (q, m)) := by
  intro ns
  induction ns with
  | nil => intro q m h; exact h
  | cons n ns ih =>
    intro q m h
    obtain ⟨hqk, hnd, hvk, hqv⟩ := h
    rw [List.foldl_cons]
    by_cases hn : (alookup m n).isSome = true
    · rw [if_pos hn]
      exact ih q m ⟨hqk, hnd, hvk, hqv⟩
    · rw [if_neg hn]
      refine ih _ _ ⟨?_, ?_, ?_, ?_⟩
      · intro c hc
        rcases (by
          by_cases hl : lifo <;> simp [queuePush, hl] at hc <;> tauto :
          c = n ∨ c ∈ q) with rfl | hcq
        · simp [alookup]
        · have := hqk c hcq
          by_cases hnc : n = c <;> simp [alookup, hnc, this]
      · have hnq : n ∉ q := fun hh => hn (hqk n hh)
        by_cases hl : lifo <;> simp [queuePush, hl, List.nodup_append, hnd, hnq]
      · intro c hc
        have := hvk c hc
        by_cases hnc : n = c <;> simp [alookup, hnc, this]
      · intro c hc
        rcases (by
          by_cases hl : lifo <;> simp [queuePush, hl] at hc <;> tauto :
          c = n ∨ c ∈ q) with rfl | hcq
        · intro hcv
          exact hn (hvk c hcv)
        · exact hqv c hcq



theorem queueLoop_snapshots (g : Grid) (lifo : Bool) :
    ∀ (fuel : ℕ) (s : QueueState),
      (∀ c ∈ s.queue, (alookup s.came_from c).isSome = true) →
      s.queue.Nodup →
      (∀ c ∈ s.visited, (alookup s.came_from c).isSome = true) →
      (∀ c ∈ s.queue, c ∉ s.visited) →
      ∀ st ∈ queueLoop g lifo fuel s, snapshotOK st := by
  intro fuel
  induction fuel with
  | zero =>
    intro s _ _ _ _ st hst
    simp [queueLoop] at hst
  | succ fuel ih =>
    intro s hqk hnd hvk hqv st hst
    obtain ⟨queue, came, visited⟩ := s
    simp only at hqk hnd hvk hqv
    cases queue with
    | nil =>
      simp only [queueLoop] at hst
      rw [List.mem_singleton] at hst
      subst hst
      exact ⟨by simp, fun c h => by simp at h⟩
    | cons current rest =>
      have hcur_mem : current ∈ current :: rest := List.mem_cons_self _ _
      have hdisj : (insert current visited) ∩ rest.toFinset = ∅ := by
        rw [Finset.eq_empty_iff_forall_not_mem]
        intro c hc
        rw [Finset.mem_inter, Finset.mem_insert, List.mem_toFinset] at hc
        obtain ⟨hc1, hc2⟩ := hc
        rcases hc1 with rfl | hcv
        · exact (List.nodup_cons.mp hnd).1 hc2
        · exact hqv c (List.mem_cons_of_mem _ hc2) hcv
      have hOK1 : ∀ p, snapshotOK ⟨some current, insert current visited, rest.toFinset, p⟩ := by
        intro p
        refine ⟨hdisj, fun c hc => ?_⟩
        have : current = c := by simpa using hc
        subst this
        exact Finset.mem_insert_self _ _
      simp only [queueLoop] at hst
      by_cases hgoal : current = g.goal
      · rw [if_pos hgoal] at hst
        rcases List.mem_cons.mp hst with rfl | hst
        · exact hOK1 none
        · rw [List.mem_singleton] at hst
          subst hst
          exact hOK1 _
      · rw [if_neg hgoal] at hst
        rcases List.mem_cons.mp hst with rfl | hst
        · exact hOK1 none
        · have h0 : QInv (insert current visited) (rest, came) := by
            refine ⟨fun c hc => hqk c (List.mem_cons_of_mem _ hc),
              (List.nodup_cons.mp hnd).2, ?_, ?_⟩
            · intro c hc
              rcases Finset.mem_insert.mp hc with rfl | hcv
              · exact hqk c hcur_mem
              · exact hvk c hcv
            · intro c hc hv
              rcases Finset.mem_insert.mp hv with rfl | hcv
              · exact (List.nodup_cons.mp hnd).1 hc
              · exact hqv c (List.mem_cons_of_mem _ hc) hcv
          have hfold := queueFold_inv g lifo current (insert current visited)
            (g.neighbours current) rest came h0
          exact ih _ hfold.1 hfold.2.1 hfold.2.2.1 hfold.2.2.2 st hst



theorem greedyFold_inv (g : Grid) (current : Cell) :
    ∀ (ns : List Cell) (s : GreedyState), GInv s →
      GInv (ns.foldl (fun t n =>
        if (alookup t.came_from n).isSome then t
        else { t with came_from := (n, some current) :: t.came_from,
                      counter := t.counter + 1,
                      open_ := t.open_ ++ [(manhattan n g.goal, t.counter + 1, n)],
                      in_open := insert n t.in_open }) s) := by
  intro ns
  induction ns with
  | nil => exact fun s h => h
  | cons n ns ih =>
    intro s h
    obtain ⟨h1, h2, h3, h4⟩ := h
    rw [List.foldl_cons]
    by_cases hn : (alookup s.came_from n).isSome = true
    · rw [if_pos hn]
      exact ih s ⟨h1, h2, h3, h4⟩
    · rw [if_neg hn]
      refine ih _ ⟨?_, ?_, ?_, ?_⟩
      · intro e he
        simp only [List.mem_append, List.mem_singleton] at he
        rcases he with he | rfl
        · have := h1 e he
          by_cases hnc : n = e.2.2 <;> simp [alookup, hnc, this]
        · simp [alookup]
      · intro c hc
        have := h2 c hc
        by_cases hnc : n = c <;> simp [alookup, hnc, this]
      · intro c hc
        rcases Finset.mem_insert.mp hc with rfl | hc
        · simp [alookup]
        · have := h3 c hc
          by_cases hnc : n = c <;> simp [alookup, hnc, this]
      · rw [Finset.eq_empty_iff_forall_not_mem]
        intro c hc
        rw [Finset.mem_inter, Finset.mem_insert] at hc
        obtain ⟨hc1, hc2⟩ := hc
        rcases hc1 with rfl | hc1
        · exact hn (h2 c hc2)
        · rw [Finset.eq_empty_iff_forall_not_mem] at h4
          exact h4 c (Finset.mem_inter.mpr ⟨hc1, hc2⟩)

theorem greedyLoop_snapshots (g : Grid) :
    ∀ (fuel : ℕ) (s : GreedyState), GInv s →
      ∀ st ∈ greedyLoop g fuel s, snapshotOK st := by
  intro fuel
  induction fuel with
  | zero =>
    intro s _ st hst
    simp [greedyLoop] at hst
  | succ fuel ih =>
    intro s hInv st hst
    obtain ⟨h1, h2, h3, h4⟩ := hInv
    rw [greedyLoop] at hst
    rcases hpop : popMin s.open_ with _ | ⟨e, rest⟩
    · rw [hpop] at hst
      dsimp only at hst
      rw [List.mem_singleton] at hst
      subst hst
      exact ⟨by simp, fun c h => by simp at h⟩
    · rw [hpop] at hst
      dsimp only at hst
      have hcur : (alookup s.came_from e.2.2).isSome = true :=
        h1 e (popMin_self_mem hpop)
      have hdisj : (insert e.2.2 s.visited) ∩ (s.in_open.erase e.2.2) = ∅ := by
        rw [Finset.eq_empty_iff_forall_not_mem]
        intro c hc
        rw [Finset.mem_inter, Finset.mem_insert, Finset.mem_erase] at hc
        obtain ⟨hc1, hcne, hcio⟩ := hc
        rcases hc1 with rfl | hc1
        · exact hcne rfl
        · rw [Finset.eq_empty_iff_forall_not_mem] at h4
          exact h4 c (Finset.mem_inter.mpr ⟨hcio, hc1⟩)
      have hOK1 : ∀ p, snapshotOK
          ⟨some e.2.2, insert e.2.2 s.visited, s.in_open.erase e.2.2, p⟩ := by
        intro p
        refine ⟨hdisj, fun c hc => ?_⟩
        have : e.2.2 = c := by simpa using hc
        subst this
        exact Finset.mem_insert_self _ _
      by_cases hgoal : e.2.2 = g.goal
      · rw [if_pos hgoal] at hst
        rcases List.mem_cons.mp hst with rfl | hst
        · exact hOK1 none
        · rw [List.mem_singleton] at hst
          subst hst
          exact hOK1 _
      · rw [if_neg hgoal] at hst
        rcases List.mem_cons.mp hst with rfl | hst
        · exact hOK1 none
        · have h0 : GInv
              ⟨rest, s.came_from, s.counter, insert e.2.2 s.visited,
                s.in_open.erase e.2.2⟩ := by
            refine ⟨?_, ?_, ?_, ?_⟩
            · intro e' he'
              exact h1 e' (popMin_rest_mem hpop e' he')
            · intro c hc
              rcases Finset.mem_insert.mp hc with rfl | hc
              · exact hcur
              · exact h2 c hc
            · intro c hc
              exact h3 c (Finset.mem_of_mem_erase hc)
            · rw [Finset.inter_comm]
              exact hdisj
          have hfold := greedyFold_inv g e.2.2 (g.neighbours e.2.2) _ h0
          exact ih _ hfold st hst



theorem heapFold_inv (A : HeapAlg) (g : Grid) (current : Cell) (base : ℕ) :
    ∀ (ns : List Cell) (s : HeapState), s.in_open ∩ s.closed = ∅ →
      (ns.foldl (heapStep A g current base) s).in_open ∩
        (ns.foldl (heapStep A g current base) s).closed = ∅ ∧
      (ns.foldl (heapStep A g current base) s).closed = s.closed := by
  intro ns
  induction ns with
  | nil => exact fun s h => ⟨h, rfl⟩
  | cons n ns ih =>
    intro s h
    rw [List.foldl_cons]
    have hstep : (heapStep A g current base s n).in_open ∩
        (heapStep A g current base s n).closed = ∅ ∧
        (heapStep A g current base s n).closed = s.closed := by
      unfold heapStep
      by_cases hn : n ∈ s.closed
      · rw [if_pos hn]
        exact ⟨h, rfl⟩
      · rw [if_neg hn]
        by_cases hlt : ltDist s.dist n (base + A.edge current n) = true
        · rw [if_pos hlt]
          refine ⟨?_, rfl⟩
          rw [Finset.eq_empty_iff_forall_not_mem]
          intro c hc
          rw [Finset.mem_inter, Finset.mem_insert] at hc
          obtain ⟨hc1, hc2⟩ := hc
          rcases hc1 with rfl | hc1
          · exact hn hc2
          · rw [Finset.eq_empty_iff_forall_not_mem] at h
            exact h c (Finset.mem_inter.mpr ⟨hc1, hc2⟩)
        · rw [if_neg hlt]
          exact ⟨h, rfl⟩
    obtain ⟨hi, hcl⟩ := ih (heapStep A g current base s n) hstep.1
    exact ⟨hi, hcl.trans hstep.2⟩

theorem heapLoop_snapshots (A : HeapAlg) (g : Grid) :
    ∀ (fuel : ℕ) (s : HeapState), s.in_open ∩ s.closed = ∅ →
      ∀ st ∈ heapLoop A g fuel s, snapshotOK st := by
  intro fuel
  induction fuel with
  | zero =>
    intro s _ st hst
    simp [heapLoop] at hst
  | succ fuel ih =>
    intro s hInv st hst
    rw [heapLoop] at hst
    rcases hpop : popMin s.open_ with _ | ⟨e, rest⟩
    · rw [hpop] at hst
      dsimp only at hst
      rw [List.mem_singleton] at hst
      subst hst
      exact ⟨by simp, fun c h => by simp at h⟩
    · rw [hpop] at hst
      dsimp only at hst
      by_cases hclosed : e.2.2 ∈ s.closed
      · rw [if_pos hclosed] at hst
        exact ih ⟨rest, s.dist, s.came_from, s.counter, s.closed, s.in_open⟩ hInv st hst
      · rw [if_neg hclosed] at hst
        have hdisj : (insert e.2.2 s.closed) ∩ (s.in_open.erase e.2.2) = ∅ := by
          rw [Finset.eq_empty_iff_forall_not_mem]
          intro c hc
          rw [Finset.mem_inter, Finset.mem_insert, Finset.mem_erase] at hc
          obtain ⟨hc1, hcne, hcio⟩ := hc
          rcases hc1 with rfl | hc1
          · exact hcne rfl
          · rw [Finset.eq_empty_iff_forall_not_mem] at hInv
            exact hInv c (Finset.mem_inter.mpr ⟨hcio, hc1⟩)
        have hOK1 : ∀ p, snapshotOK
            ⟨some e.2.2, insert e.2.2 s.closed, s.in_open.erase e.2.2, p⟩ := by
          intro p
          refine ⟨hdisj, fun c hc => ?_⟩
          have : e.2.2 = c := by simpa using hc
          subst this
          exact Finset.mem_insert_self _ _
        by_cases hgoal : e.2.2 = g.goal
        · rw [if_pos hgoal] at hst
          rcases List.mem_cons.mp hst with rfl | hst
          · exact hOK1 none
          · rw [List.mem_singleton] at hst
            subst hst
            exact hOK1 _
        · rw [if_neg hgoal] at hst
          rcases List.mem_cons.mp hst with rfl | hst
          · exact hOK1 none
          · have h0 : (s.in_open.erase e.2.2) ∩ (insert e.2.2 s.closed) = ∅ := by
              rw [Finset.inter_comm]
              exact hdisj
            have hfold := heapFold_inv A g e.2.2
              (if A.baseFromPopped then e.1 else (alookup s.dist e.2.2).getD 0)
              (A.succ g e.2.2 s.came_from)
              ⟨rest, s.dist, s.came_from, s.counter, insert e.2.2 s.closed,
                s.in_open.erase e.2.2⟩ h0
            exact ih _ hfold.1 st hst


/-! ## Disconnection lemmas (claim C4) -/



theorem alookup_isSome_iff {β : Type} (m : List (Cell × β)) (c : Cell) :
    (alookup m c).isSome = true ↔ c ∈ keysFinset m := by
  induction m with
  | nil => simp [alookup, keysFinset]
  | cons p rest ih =>
    obtain ⟨k, v⟩ := p
    by_cases hk : k = c
    · subst hk
      simp [alookup, keysFinset]
    · simp only [alookup, if_neg hk, keysFinset, List.map_cons, List.toFinset_cons,
        Finset.mem_insert]
      rw [ih]
      simp [keysFinset, hk]
      tauto

theorem walkable_mem_gridCells {g : Grid} {c : Cell} (h : walkable g c = true) :
    c ∈ gridCells g := by
  rw [gridCells, List.mem_toFinset, mem_cellsList]
  simp only [walkable, Grid.inB, Bool.and_eq_true, decide_eq_true_eq] at h
  exact ⟨h.1.1.1.1, h.1.1.1.2, h.1.1.2, h.1.2⟩

theorem walkable_start (g : Grid) : walkable g g.start = true := by
  simp only [walkable, Grid.inB, Bool.and_eq_true, decide_eq_true_eq]
  obtain ⟨a, b, c, d⟩ := g.start_in
  exact ⟨⟨⟨⟨a, b⟩, c⟩, d⟩, g.start_notobst⟩

theorem card_gridCells_le (g : Grid) : (gridCells g).card ≤ (g.rows * g.cols).toNat := by
  have h1 : (gridCells g).card ≤ (cellsList g.rows g.cols).length :=
    List.toFinset_card_le _
  have h2 : (cellsList g.rows g.cols).length = g.rows.toNat * g.cols.toNat :=
    length_cellsList _ _
  have h3 : (g.rows * g.cols).toNat = g.rows.toNat * g.cols.toNat := by
    rcases Int.eq_ofNat_of_zero_le (le_trans (by norm_num) g.rows_ge) with ⟨m, hm⟩
    rcases Int.eq_ofNat_of_zero_le (le_trans (by norm_num) g.cols_ge) with ⟨n, hn⟩
    rw [hm, hn, ← Nat.cast_mul, Int.toNat_natCast, Int.toNat_natCast, Int.toNat_natCast]
  omega

theorem mem_dirs8_iff {d : Cell} :
    d ∈ dirs8 ↔ (d.1 = -1 ∨ d.1 = 0 ∨ d.1 = 1) ∧ (d.2 = -1 ∨ d.2 = 0 ∨ d.2 = 1) ∧
      ¬(d.1 = 0 ∧ d.2 = 0) := by
  obtain ⟨a, b⟩ := d
  simp [dirs8, Prod.ext_iff]
  omega

theorem mem_neighbours_step {g : Grid} {c n : Cell} (h : n ∈ g.neighbours c) :
    walkable g n = true ∧ (n.1 - c.1, n.2 - c.2) ∈ dirs8 := by
  rw [Grid.neighbours, List.mem_filterMap] at h
  obtain ⟨d, hd, hf⟩ := h
  dsimp only at hf
  by_cases hw : (g.inB (c.1 + d.1, c.2 + d.2) && decide (g.kindAt (c.1 + d.1, c.2 + d.2) ≠ OBSTACLE)) = true
  · rw [if_pos hw] at hf
    rw [Option.some.injEq] at hf
    subst hf
    constructor
    · exact hw
    · have : ((c.1 + d.1 - c.1, c.2 + d.2 - c.2) : Cell) = d := by
        apply Prod.ext <;> simp
      rw [this]
      have hsub : ∀ x ∈ dirs4, x ∈ dirs8 := by decide
      exact hsub d hd
  · rw [if_neg hw] at hf
    exact Option.noConfusion hf



theorem jump_reach (g : Grid) :
    ∀ (fuel : ℕ) (r c dr dc : ℤ) (goal : Cell) (jp : Cell),
      (dr = -1 ∨ dr = 0 ∨ dr = 1) → (dc = -1 ∨ dc = 0 ∨ dc = 1) →
      walkable g (r, c) = true →
      jump g fuel r c dr dc goal = some jp →
      Relation.ReflTransGen (adjStep g) (r, c) jp ∧ walkable g jp = true := by
  intro fuel
  induction fuel with
  | zero =>
    intro r c dr dc goal jp _ _ _ h
    simp [jump] at h
  | succ fuel ih =>
    intro r c dr dc goal jp hdr hdc hw h
    rw [jump] at h
    by_cases h1 : walkable g (r + dr, c + dc) = true
    case neg =>
      rw [if_pos h1] at h
      exact Option.noConfusion h
    case pos =>
      rw [if_neg (not_not_intro h1)] at h
      have hstep : Relation.ReflTransGen (adjStep g) (r, c) (r + dr, c + dc) := by
        by_cases h00 : dr = 0 ∧ dc = 0
        · obtain ⟨e1, e2⟩ := h00
          subst e1
          subst e2
          simp only [add_zero]
          exact Relation.ReflTransGen.refl
        · refine Relation.ReflTransGen.single ⟨hw, h1, ?_⟩
          have : ((r + dr - r, c + dc - c) : Cell) = (dr, dc) := by
            apply Prod.ext <;> simp
          rw [this]
          exact mem_dirs8_iff.mpr ⟨hdr, hdc, h00⟩
      have hsome : some (r + dr, c + dc) = some jp →
          Relation.ReflTransGen (adjStep g) (r, c) jp ∧ walkable g jp = true := by
        intro hh
        rw [Option.some.injEq] at hh
        subst hh
        exact ⟨hstep, h1⟩
      split_ifs at h with h2 h3 h4 h5 h6 h7 h8 h9 h10 h11 <;>
        first
          | exact Option.noConfusion h
          | exact hsome h
          | (obtain ⟨hr1, hr2⟩ := ih (r + dr) (c + dc) dr dc goal jp hdr hdc h1 h
             exact ⟨hstep.trans hr1, hr2⟩)



theorem sign_cases (x : ℤ) : sign x = -1 ∨ sign x = 0 ∨ sign x = 1 := by
  unfold sign
  split_ifs <;> norm_num

theorem prunedDirections_components {g : Grid} {r c dr dc : ℤ}
    (hdr : dr = -1 ∨ dr = 0 ∨ dr = 1) (hdc : dc = -1 ∨ dc = 0 ∨ dc = 1) :
    ∀ d ∈ prunedDirections g r c dr dc,
      (d.1 = -1 ∨ d.1 = 0 ∨ d.1 = 1) ∧ (d.2 = -1 ∨ d.2 = 0 ∨ d.2 = 1) := by
  intro d hd
  unfold prunedDirections at hd
  split_ifs at hd <;>
    simp only [List.mem_append, List.mem_cons, List.mem_singleton, List.not_mem_nil,
      or_false, false_or, Prod.ext_iff] at hd <;>
    constructor <;> omega

theorem identifySuccessors_reach (g : Grid) (cur : Cell)
    (came : List (Cell × Option Cell)) (goal : Cell)
    (hw : walkable g cur = true) :
    ∀ n ∈ identifySuccessors g cur came goal,
      Relation.ReflTransGen (adjStep g) cur n ∧ walkable g n = true := by
  intro n hn
  rw [identifySuccessors] at hn
  have main : ∀ d : Cell, (d.1 = -1 ∨ d.1 = 0 ∨ d.1 = 1) → (d.2 = -1 ∨ d.2 = 0 ∨ d.2 = 1) →
      jump g (jumpFuel g) cur.1 cur.2 d.1 d.2 goal = some n →
      Relation.ReflTransGen (adjStep g) cur n ∧ walkable g n = true := by
    intro d hc1 hc2 hj
    exact jump_reach g (jumpFuel g) cur.1 cur.2 d.1 d.2 goal n hc1 hc2 hw hj
  rcases hmatch : (alookup came cur).getD none with _ | p <;> rw [hmatch] at hn <;>
    dsimp only at hn <;> rw [List.mem_filterMap] at hn <;> obtain ⟨d, hd, hjump⟩ := hn
  · have := mem_dirs8_iff.mp hd
    exact main d this.1 this.2.1 hjump
  · have := prunedDirections_components (sign_cases (cur.1 - p.1)) (sign_cases (cur.2 - p.2)) d hd
    exact main d this.1 this.2 hjump



theorem getLast?_cons_of_getLast? {α : Type} {a b : α} {l : List α}
    (h : l.getLast? = some b) : (a :: l).getLast? = some b := by
  cases l with
  | nil => simp at h
  | cons x xs =>
    rw [List.getLast?_cons_cons]
    exact h

theorem heapFold_closed (A : HeapAlg) (g : Grid) (current : Cell) (base : ℕ) :
    ∀ (ns : List Cell) (s : HeapState),
      (ns.foldl (heapStep A g current base) s).closed = s.closed := by
  intro ns
  induction ns with
  | nil => intro s; rfl
  | cons n ns ih =>
    intro s
    rw [List.foldl_cons, ih]
    unfold heapStep
    dsimp only
    split_ifs <;> rfl

theorem heapFold_entries (A : HeapAlg) (g : Grid) (current : Cell) (base : ℕ) :
    ∀ (ns : List Cell) (s : HeapState),
      (∀ e ∈ (ns.foldl (heapStep A g current base) s).open_,
        e ∈ s.open_ ∨ e.2.2 ∈ ns) ∧
      (ns.foldl (heapStep A g current base) s).open_.length ≤ s.open_.length + ns.length := by
  intro ns
  induction ns with
  | nil =>
    intro s
    exact ⟨fun e he => Or.inl he, by simp⟩
  | cons n ns ih =>
    intro s
    rw [List.foldl_cons]
    obtain ⟨ih1, ih2⟩ := ih (heapStep A g current base s n)
    have hstep_entries : ∀ e ∈ (heapStep A g current base s n).open_,
        e ∈ s.open_ ∨ e.2.2 = n := by
      intro e he
      unfold heapStep at he
      dsimp only at he
      split_ifs at he
      · exact Or.inl he
      · simp only [List.mem_append, List.mem_singleton] at he
        rcases he with he | rfl
        · exact Or.inl he
        · exact Or.inr rfl
      · exact Or.inl he
    have hstep_len : (heapStep A g current base s n).open_.length ≤ s.open_.length + 1 := by
      unfold heapStep
      dsimp only
      split_ifs <;> simp
    constructor
    · intro e he
      rcases ih1 e he with he1 | he2
      · rcases hstep_entries e he1 with h | h
        · exact Or.inl h
        · exact Or.inr (h ▸ List.mem_cons_self _ _)
      · exact Or.inr (List.mem_cons_of_mem _ he2)
    · have : (n :: ns).length = ns.length + 1 := by simp
      omega

theorem heapLoop_fails (A : HeapAlg) (g : Grid)
    (hsucc : ∀ (cur : Cell) (came : List (Cell × Option Cell)), walkable g cur = true →
      ∀ n ∈ A.succ g cur came,
        Relation.ReflTransGen (adjStep g) cur n ∧ walkable g n = true)
    (hslen : ∀ cur came, (A.succ g cur came).length ≤ 8)
    (hnc : ¬ Connected8 g) :
    ∀ (fuel : ℕ) (s : HeapState),
      (∀ e ∈ s.open_, walkable g e.2.2 = true ∧
        Relation.ReflTransGen (adjStep g) g.start e.2.2) →
      heapPot g s < fuel →
      ∃ v, (heapLoop A g fuel s).getLast? = some ⟨none, v, ∅, none⟩ := by
  intro fuel
  induction fuel with
  | zero =>
    intro s _ h
    omega
  | succ fuel ih =>
    intro s hreach hpot
    rw [heapLoop]
    rcases hpop : popMin s.open_ with _ | ⟨e, rest⟩
    · exact ⟨s.closed, by simp⟩
    · dsimp only
      have hplen := popMin_length hpop
      by_cases hcl : e.2.2 ∈ s.closed
      · rw [if_pos hcl]
        apply ih
        · intro e' he'
          exact hreach e' (popMin_rest_mem hpop e' he')
        · unfold heapPot at hpot ⊢
          dsimp only
          omega
      · rw [if_neg hcl]
        have hcur := hreach e (popMin_self_mem hpop)
        by_cases hgoal : e.2.2 = g.goal
        · exfalso
          apply hnc
          unfold Connected8
          rw [← hgoal]
          exact hcur.2
        · rw [if_neg hgoal]
          have hfe := heapFold_entries A g e.2.2
            (if A.baseFromPopped = true then e.1 else (alookup s.dist e.2.2).getD 0)
            (A.succ g e.2.2 s.came_from)
            ⟨rest, s.dist, s.came_from, s.counter, insert e.2.2 s.closed,
              s.in_open.erase e.2.2⟩
          have hfc := heapFold_closed A g e.2.2
            (if A.baseFromPopped = true then e.1 else (alookup s.dist e.2.2).getD 0)
            (A.succ g e.2.2 s.came_from)
            ⟨rest, s.dist, s.came_from, s.counter, insert e.2.2 s.closed,
              s.in_open.erase e.2.2⟩
          have hdiffcard : ((gridCells g) \ (insert e.2.2 s.closed)).card + 1 =
              ((gridCells g) \ s.closed).card := by
            have hmemdiff : e.2.2 ∈ (gridCells g) \ s.closed :=
              Finset.mem_sdiff.mpr ⟨walkable_mem_gridCells hcur.1, hcl⟩
            have herase : (gridCells g) \ (insert e.2.2 s.closed) =
                ((gridCells g) \ s.closed).erase e.2.2 := by
              ext x
              simp only [Finset.mem_sdiff, Finset.mem_erase, Finset.mem_insert]
              tauto
            rw [herase, Finset.card_erase_of_mem hmemdiff]
            have : 0 < ((gridCells g) \ s.closed).card := Finset.card_pos.mpr ⟨_, hmemdiff⟩
            omega
          obtain ⟨v, hv⟩ := ih
            (heapExpand A g e.2.2
              (if A.baseFromPopped = true then e.1 else (alookup s.dist e.2.2).getD 0)
              ⟨rest, s.dist, s.came_from, s.counter, insert e.2.2 s.closed,
                s.in_open.erase e.2.2⟩)
            (by
              intro e' he'
              rcases hfe.1 e' he' with h | h
              · exact hreach e' (popMin_rest_mem hpop e' h)
              · obtain ⟨hr, hwn⟩ := hsucc e.2.2 s.came_from hcur.1 e'.2.2 h
                exact ⟨hwn, hcur.2.trans hr⟩)
            (by
              have h8 := hslen e.2.2 s.came_from
              have hle := hfe.2
              unfold heapPot at hpot ⊢
              unfold heapExpand
              rw [hfc]
              dsimp only
              dsimp only at hle
              omega)
          exact ⟨v, getLast?_cons_of_getLast? hv⟩



theorem card_sdiff_insert {g : Grid} {S : Finset Cell} {c : Cell}
    (hc : c ∈ gridCells g) (hns : c ∉ S) :
    ((gridCells g) \ (insert c S)).card + 1 = ((gridCells g) \ S).card := by
  have hmemdiff : c ∈ (gridCells g) \ S := Finset.mem_sdiff.mpr ⟨hc, hns⟩
  have herase : (gridCells g) \ (insert c S) = ((gridCells g) \ S).erase c := by
    ext x
    simp only [Finset.mem_sdiff, Finset.mem_erase, Finset.mem_insert]
    tauto
  rw [herase, Finset.card_erase_of_mem hmemdiff]
  have : 0 < ((gridCells g) \ S).card := Finset.card_pos.mpr ⟨_, hmemdiff⟩
  omega

theorem queueFold_pot (g : Grid) (lifo : Bool) (current : Cell) :
    ∀ (ns : List Cell) (q : List Cell) (m : List (Cell × Option Cell)),
      (∀ n ∈ ns, walkable g n = true) →
      (∀ c ∈ (ns.foldl (fun qc n => if (alookup qc.2 n).isSome then qc
          else (queuePush lifo qc.1 n, (n, some current) :: qc.2)) (q, m)).1,
        c ∈ q ∨ c ∈ ns) ∧
      ((ns.foldl (fun qc n => if (alookup qc.2 n).isSome then qc
          else (queuePush lifo qc.1 n, (n, some current) :: qc.2)) (q, m)).1.length +
        9 * ((gridCells g) \ keysFinset
          ((ns.foldl (fun qc n => if (alookup qc.2 n).isSome then qc
            else (queuePush lifo qc.1 n, (n, some current) :: qc.2)) (q, m)).2)).card ≤
        q.length + 9 * ((gridCells g) \ keysFinset m).card) := by
  intro ns
  induction ns with
  | nil =>
    intro q m _
    exact ⟨fun c hc => Or.inl hc, le_refl _⟩
  | cons n ns ih =>
    intro q m hwalk
    rw [List.foldl_cons]
    by_cases hn : (alookup m n).isSome = true
    · rw [if_pos hn]
      obtain ⟨ih1, ih2⟩ := ih q m (fun x hx => hwalk x (List.mem_cons_of_mem _ hx))
      exact ⟨fun c hc => (ih1 c hc).imp id (List.mem_cons_of_mem _), ih2⟩
    · rw [if_neg hn]
      dsimp only
      obtain ⟨ih1, ih2⟩ := ih (queuePush lifo q n) ((n, some current) :: m)
        (fun x hx => hwalk x (List.mem_cons_of_mem _ hx))
      constructor
      · intro c hc
        rcases ih1 c hc with hc1 | hc2
        · have : c ∈ q ∨ c = n := by
            by_cases hl : lifo <;> simp [queuePush, hl] at hc1 <;> tauto
          rcases this with h | rfl
          · exact Or.inl h
          · exact Or.inr (List.mem_cons_self _ _)
        · exact Or.inr (List.mem_cons_of_mem _ hc2)
      · have hlen : (queuePush lifo q n).length = q.length + 1 := by
          by_cases hl : lifo <;> simp [queuePush, hl]
        have hkeys : keysFinset ((n, some current) :: m) = insert n (keysFinset m) := by
          simp [keysFinset]
        have hcard := card_sdiff_insert (g := g)
          (walkable_mem_gridCells (hwalk n (List.mem_cons_self _ _)))
          (fun hmem => hn ((alookup_isSome_iff m n).mpr hmem))
        rw [hkeys] at ih2
        omega

theorem queueLoop_fails (g : Grid) (lifo : Bool) (hnc : ¬ Connected8 g) :
    ∀ (fuel : ℕ) (s : QueueState),
      (∀ c ∈ s.queue, walkable g c = true ∧ Relation.ReflTransGen (adjStep g) g.start c) →
      queuePot g s < fuel →
      ∃ v, (queueLoop g lifo fuel s).getLast? = some ⟨none, v, ∅, none⟩ := by
  intro fuel
  induction fuel with
  | zero =>
    intro s _ h
    omega
  | succ fuel ih =>
    intro s hreach hpot
    obtain ⟨queue, came, visited⟩ := s
    simp only at hreach
    unfold queuePot at hpot
    dsimp only at hpot
    rw [queueLoop]
    cases queue with
    | nil => exact ⟨visited, by simp⟩
    | cons current rest =>
      dsimp only
      have hcur := hreach current (List.mem_cons_self _ _)
      by_cases hgoal : current = g.goal
      · exfalso
        apply hnc
        unfold Connected8
        rw [← hgoal]
        exact hcur.2
      · rw [if_neg hgoal]
        have hfold := queueFold_pot g lifo current (g.neighbours current) rest came
          (fun n hn => (mem_neighbours_step hn).1)
        obtain ⟨v, hv⟩ := ih
          ⟨(queueExpand g lifo current (rest, came)).1,
           (queueExpand g lifo current (rest, came)).2, insert current visited⟩
          (by
            intro c hc
            rcases hfold.1 c hc with h | h
            · exact hreach c (List.mem_cons_of_mem _ h)
            · obtain ⟨hwn, hoff⟩ := mem_neighbours_step h
              refine ⟨hwn, hcur.2.trans (Relation.ReflTransGen.single ⟨hcur.1, hwn, hoff⟩)⟩)
          (by
            unfold queuePot
            unfold queueExpand
            dsimp only
            have := hfold.2
            simp only [List.length_cons] at hpot
            omega)
        exact ⟨v, getLast?_cons_of_getLast? hv⟩



theorem greedyFold_pot (g : Grid) (current : Cell) :
    ∀ (ns : List Cell) (s : GreedyState),
      (∀ n ∈ ns, walkable g n = true) →
      (∀ e ∈ (ns.foldl (fun t n =>
          if (alookup t.came_from n).isSome then t
          else { t with came_from := (n, some current) :: t.came_from,
                        counter := t.counter + 1,
                        open_ := t.open_ ++ [(manhattan n g.goal, t.counter + 1, n)],
                        in_open := insert n t.in_open }) s).open_,
        e ∈ s.open_ ∨ e.2.2 ∈ ns) ∧
      ((ns.foldl (fun t n =>
          if (alookup t.came_from n).isSome then t
          else { t with came_from := (n, some current) :: t.came_from,
                        counter := t.counter + 1,
                        open_ := t.open_ ++ [(manhattan n g.goal, t.counter + 1, n)],
                        in_open := insert n t.in_open }) s).open_.length +
        9 * ((gridCells g) \ keysFinset
          ((ns.foldl (fun t n =>
            if (alookup t.came_from n).isSome then t
            else { t with came_from := (n, some current) :: t.came_from,
                          counter := t.counter + 1,
                          open_ := t.open_ ++ [(manhattan n g.goal, t.counter + 1, n)],
                          in_open := insert n t.in_open }) s).came_from)).card ≤
        s.open_.length + 9 * ((gridCells g) \ keysFinset s.came_from).card) := by
  intro ns
  induction ns with
  | nil =>
    intro s _
    exact ⟨fun e he => Or.inl he, le_refl _⟩
  | cons n ns ih =>
    intro s hwalk
    rw [List.foldl_cons]
    by_cases hn : (alookup s.came_from n).isSome = true
    · rw [if_pos hn]
      obtain ⟨ih1, ih2⟩ := ih s (fun x hx => hwalk x (List.mem_cons_of_mem _ hx))
      exact ⟨fun e he => (ih1 e he).imp id (List.mem_cons_of_mem _), ih2⟩
    · rw [if_neg hn]
      obtain ⟨ih1, ih2⟩ := ih
        { s with came_from := (n, some current) :: s.came_from,
                 counter := s.counter + 1,
                 open_ := s.open_ ++ [(manhattan n g.goal, s.counter + 1, n)],
                 in_open := insert n s.in_open }
        (fun x hx => hwalk x (List.mem_cons_of_mem _ hx))
      constructor
      · intro e he
        rcases ih1 e he with he1 | he2
        · simp only [List.mem_append, List.mem_singleton] at he1
          rcases he1 with h | rfl
          · exact Or.inl h
          · exact Or.inr (List.mem_cons_self _ _)
        · exact Or.inr (List.mem_cons_of_mem _ he2)
      · have hkeys : keysFinset ((n, some current) :: s.came_from) =
            insert n (keysFinset s.came_from) := by
          simp [keysFinset]
        have hcard := card_sdiff_insert (g := g)
          (walkable_mem_gridCells (hwalk n (List.mem_cons_self _ _)))
          (fun hmem => hn ((alookup_isSome_iff s.came_from n).mpr hmem))
        simp only [hkeys] at ih2
        simp only [List.length_append, List.length_singleton] at ih2
        omega

theorem greedyLoop_fails (g : Grid) (hnc : ¬ Connected8 g) :
    ∀ (fuel : ℕ) (s : GreedyState),
      (∀ e ∈ s.open_, walkable g e.2.2 = true ∧
        Relation.ReflTransGen (adjStep g) g.start e.2.2) →
      greedyPot g s < fuel →
      ∃ v, (greedyLoop g fuel s).getLast? = some ⟨none, v, ∅, none⟩ := by
  intro fuel
  induction fuel with
  | zero =>
    intro s _ h
    omega
  | succ fuel ih =>
    intro s hreach hpot
    rw [greedyLoop]
    rcases hpop : popMin s.open_ with _ | ⟨e, rest⟩
    · exact ⟨s.visited, by simp⟩
    · dsimp only
      have hplen := popMin_length hpop
      have hcur := hreach e (popMin_self_mem hpop)
      by_cases hgoal : e.2.2 = g.goal
      · exfalso
        apply hnc
        unfold Connected8
        rw [← hgoal]
        exact hcur.2
      · rw [if_neg hgoal]
        have hfold := greedyFold_pot g e.2.2 (g.neighbours e.2.2)
          ⟨rest, s.came_from, s.counter, insert e.2.2 s.visited, s.in_open.erase e.2.2⟩
          (fun n hn => (mem_neighbours_step hn).1)
        obtain ⟨v, hv⟩ := ih
          (greedyExpand g e.2.2
            ⟨rest, s.came_from, s.counter, insert e.2.2 s.visited, s.in_open.erase e.2.2⟩)
          (by
            intro e' he'
            rw [greedyExpand] at he'
            rcases hfold.1 e' he' with h | h
            · exact hreach e' (popMin_rest_mem hpop e' h)
            · obtain ⟨hwn, hoff⟩ := mem_neighbours_step h
              exact ⟨hwn, hcur.2.trans (Relation.ReflTransGen.single ⟨hcur.1, hwn, hoff⟩)⟩)
          (by
            unfold greedyPot
            unfold greedyExpand
            have := hfold.2
            dsimp only at this
            unfold greedyPot at hpot
            omega)
        exact ⟨v, getLast?_cons_of_getLast? hv⟩



theorem identifySuccessors_len_le (g : Grid) (cur : Cell)
    (came : List (Cell × Option Cell)) (goal : Cell) :
    (identifySuccessors g cur came goal).length ≤ 8 := by
  rw [identifySuccessors]
  rcases (alookup came cur).getD none with _ | p <;> dsimp only
  · exact le_trans (List.length_filterMap_le _ _) (by simp [dirs8])
  · refine le_trans (List.length_filterMap_le _ _) ?_
    unfold prunedDirections
    split_ifs <;> simp

theorem neighbours_len_le (g : Grid) (c : Cell) : (g.neighbours c).length ≤ 8 := by
  refine le_trans (List.length_filterMap_le _ _) ?_
  simp [dirs4]

/-- **C4.** For every grid in which no sequence of free cells connects
start to goal (no chain of 8-connected unit steps through walkable
cells — the loosest movement any of the six algorithms performs), every
one of the six algorithms terminates with a final snapshot that is the
failure terminal: `current` absent and `path` absent (and an empty
frontier).  Termination is captured by the explicit potential argument:
each loop ends with the open structure empty within its fuel bound, so
the failure snapshot really is emitted last. -/
theorem C4_disconnected_all_fail (g : Grid) (hnc : ¬ Connected8 g) :
    (∃ v, (bfs_gen g).getLast? = some ⟨none, v, ∅, none⟩) ∧
    (∃ v, (dfs_gen g).getLast? = some ⟨none, v, ∅, none⟩) ∧
    (∃ v, (best_first_search_gen g).getLast? = some ⟨none, v, ∅, none⟩) ∧
    (∃ v, (dijkstra_gen g).getLast? = some ⟨none, v, ∅, none⟩) ∧
    (∃ v, (astar_gen g).getLast? = some ⟨none, v, ∅, none⟩) ∧
    (∃ v, (jps_gen g).getLast? = some ⟨none, v, ∅, none⟩) := by
  have hqreach : ∀ c ∈ [g.start], walkable g c = true ∧
      Relation.ReflTransGen (adjStep g) g.start c := by
    intro c hc
    rw [List.mem_singleton] at hc
    subst hc
    exact ⟨walkable_start g, Relation.ReflTransGen.refl⟩
  have hcard : ((gridCells g) \ keysFinset ([(g.start, (none : Option Cell))])).card ≤
      (g.rows * g.cols).toNat :=
    le_trans (Finset.card_le_card (Finset.sdiff_subset)) (card_gridCells_le g)
  have hcard0 : ((gridCells g) \ (∅ : Finset Cell)).card ≤ (g.rows * g.cols).toNat := by
    rw [Finset.sdiff_empty]
    exact card_gridCells_le g
  have hqpot : queuePot g ⟨[g.start], [(g.start, none)], ∅⟩ < fuelBound g := by
    unfold queuePot fuelBound
    dsimp only
    simp only [List.length_singleton]
    omega
  have hereach : ∀ (p : ℕ), ∀ e ∈ [(p, 0, g.start)], walkable g e.2.2 = true ∧
      Relation.ReflTransGen (adjStep g) g.start e.2.2 := by
    intro p e he
    rw [List.mem_singleton] at he
    subst he
    exact ⟨walkable_start g, Relation.ReflTransGen.refl⟩
  have hneigh : ∀ (cur : Cell) (came : List (Cell × Option Cell)), walkable g cur = true →
      ∀ n ∈ g.neighbours cur,
        Relation.ReflTransGen (adjStep g) cur n ∧ walkable g n = true := by
    intro cur came hw n hn
    obtain ⟨hwn, hoff⟩ := mem_neighbours_step hn
    exact ⟨Relation.ReflTransGen.single ⟨hw, hwn, hoff⟩, hwn⟩
  refine ⟨?_, ?_, ?_, ?_, ?_, ?_⟩
  · exact queueLoop_fails g false hnc (fuelBound g) ⟨[g.start], [(g.start, none)], ∅⟩
      hqreach hqpot
  · exact queueLoop_fails g true hnc (fuelBound g) ⟨[g.start], [(g.start, none)], ∅⟩
      hqreach hqpot
  · refine greedyLoop_fails g hnc (fuelBound g)
      ⟨[(manhattan g.start g.goal, 0, g.start)], [(g.start, none)], 0, ∅, {g.start}⟩
      (hereach _) ?_
    unfold greedyPot fuelBound
    dsimp only
    simp only [List.length_singleton]
    omega
  · refine heapLoop_fails dijkstraAlg g (fun cur came hw => hneigh cur came hw)
      (fun cur came => neighbours_len_le g cur) hnc (fuelBound g)
      (heapInit dijkstraAlg g) (hereach _) ?_
    unfold heapPot fuelBound heapInit
    dsimp only
    simp only [List.length_singleton]
    omega
  · refine heapLoop_fails astarAlg g (fun cur came hw => hneigh cur came hw)
      (fun cur came => neighbours_len_le g cur) hnc (fuelBound g)
      (heapInit astarAlg g) (hereach _) ?_
    unfold heapPot fuelBound heapInit
    dsimp only
    simp only [List.length_singleton]
    omega
  · refine heapLoop_fails jpsAlg g
      (fun cur came hw => identifySuccessors_reach g cur came g.goal hw)
      (fun cur came => identifySuccessors_len_le g cur came g.goal) hnc (fuelBound g)
      (heapInit jpsAlg g) (hereach _) ?_
    unfold heapPot fuelBound heapInit
    dsimp only
    simp only [List.length_singleton]
    omega

theorem gridWall_not_connected : ¬ Connected8 gridWall := by
  intro h
  unfold Connected8 at h
  have key : ∀ x, Relation.ReflTransGen (adjStep gridWall) gridWall.start x →
      x ∈ ([(0, 0), (0, 1), (0, 2)] : List Cell) := by
    intro x hx
    induction hx with
    | refl => decide
    | @tail b c hab hbc ih =>
      obtain ⟨hwb, hwc, hoff⟩ := hbc
      have hcl : ∀ a ∈ ([(0, 0), (0, 1), (0, 2)] : List Cell), ∀ d ∈ dirs8,
          walkable gridWall (a.1 + d.1, a.2 + d.2) = true →
          ((a.1 + d.1, a.2 + d.2) : Cell) ∈ ([(0, 0), (0, 1), (0, 2)] : List Cell) := by
        decide
      have he : ((b.1 + (c.1 - b.1), b.2 + (c.2 - b.2)) : Cell) = c := by
        apply Prod.ext <;> simp
      rw [← he]
      apply hcl b ih (c.1 - b.1, c.2 - b.2) hoff
      rw [he]
      exact hwc
  have := key gridWall.goal h
  revert this
  decide


/-- Witness for C4: on the 4-by-3 grid whose second row is entirely
obstacles, all six searches end in the failure terminal. -/
theorem C4_disconnected_all_fail_witness :
    (∃ v, (bfs_gen gridWall).getLast? = some ⟨none, v, ∅, none⟩) ∧
    (∃ v, (dfs_gen gridWall).getLast? = some ⟨none, v, ∅, none⟩) ∧
    (∃ v, (best_first_search_gen gridWall).getLast? = some ⟨none, v, ∅, none⟩) ∧
    (∃ v, (dijkstra_gen gridWall).getLast? = some ⟨none, v, ∅, none⟩) ∧
    (∃ v, (astar_gen gridWall).getLast? = some ⟨none, v, ∅, none⟩) ∧
    (∃ v, (jps_gen gridWall).getLast? = some ⟨none, v, ∅, none⟩) :=
  C4_disconnected_all_fail gridWall gridWall_not_connected

/-! ## Claim theorems -/

/-- **C7.** On the 5-by-5 obstacle-free grid with start `(0,0)` and goal
`(4,4)`, BFS, Dijkstra and A* each return a path of exactly 9 cells, and
JPS returns exactly the 5-cell diagonal path
`(0,0), (1,1), (2,2), (3,3), (4,4)`. -/
theorem C7_concrete_five_grid :
    (bfs gridFive).map List.length = some 9 ∧
    (dijkstra gridFive).map List.length = some 9 ∧
    (astar gridFive).map List.length = some 9 ∧
    jps gridFive = some [(0, 0), (1, 1), (2, 2), (3, 3), (4, 4)] := by
  refine ⟨by decide, by decide, by decide, by decide⟩

/-- **C1** (code-bug exhibit).  On `gridCorner` — constructible as
`Grid(rows=2, cols=2, start=(0,0), goal=(1,1), obstacle_pct=0.5)`, which
makes both non-terminal cells obstacles — the JPS search returns the
non-empty path `[(0,0), (1,1)]` whose only step is a diagonal move both of
whose flanking orthogonal cells `(0,1)` and `(1,0)` are obstacles.  This
contradicts the claim that every consecutive pair of a returned JPS path
is an 8-connected step "in which a diagonal step never passes a blocked
corner (both flanking orthogonal cells free)": `_jump` never checks the
flanks of the first diagonal step, and its continuation check
(`jps.py` line 71) requires only one flank to be free. -/
theorem C1_jps_returns_corner_cutting_path :
    jps gridCorner = some [(0, 0), (1, 1)] ∧
    gridCorner.kindAt (0, 1) = OBSTACLE ∧
    gridCorner.kindAt (1, 0) = OBSTACLE ∧
    gridCorner.start = (0, 0) ∧ gridCorner.goal = (1, 1) := by
  refine ⟨by decide, by decide, by decide, by decide, by decide⟩

/-- **C6.** For every constructed grid and every in-bounds cell,
`neighbours8` returns exactly the adjacent in-bounds non-Obstacle cells
among the 8 surrounding cells, a diagonal neighbour being included only
when both flanking orthogonal cells are not Obstacle; in particular it
never includes a diagonal cell whose two flanking orthogonal cells are
both Obstacle, and (the grid being immutable) repeated calls return the
same result. -/
theorem C6_neighbours8_spec (g : Grid) (c : Cell) (hc : g.inB c = true) :
    (∀ n : Cell, n ∈ g.neighbours8 c ↔
      ∃ d ∈ dirs8, n = (c.1 + d.1, c.2 + d.2) ∧ g.inB n = true ∧
        g.kindAt n ≠ OBSTACLE ∧
        (d.1 ≠ 0 ∧ d.2 ≠ 0 →
          g.kindAt (c.1 + d.1, c.2) ≠ OBSTACLE ∧ g.kindAt (c.1, c.2 + d.2) ≠ OBSTACLE)) ∧
    (∀ d ∈ dirs8, d.1 ≠ 0 → d.2 ≠ 0 →
      g.kindAt (c.1 + d.1, c.2) = OBSTACLE → g.kindAt (c.1, c.2 + d.2) = OBSTACLE →
      (c.1 + d.1, c.2 + d.2) ∉ g.neighbours8 c) ∧
    g.neighbours8 c = g.neighbours8 c := by
  have key : ∀ n : Cell, n ∈ g.neighbours8 c ↔
      ∃ d ∈ dirs8, n = (c.1 + d.1, c.2 + d.2) ∧ g.inB n = true ∧
        g.kindAt n ≠ OBSTACLE ∧
        (d.1 ≠ 0 ∧ d.2 ≠ 0 →
          g.kindAt (c.1 + d.1, c.2) ≠ OBSTACLE ∧ g.kindAt (c.1, c.2 + d.2) ≠ OBSTACLE) := by
    intro n
    unfold Grid.neighbours8
    rw [List.mem_filterMap]
    constructor
    · rintro ⟨d, hd, hf⟩
      refine ⟨d, hd, ?_⟩
      dsimp only at hf
      split_ifs at hf with h1 h2 h3 h4 <;> simp at hf <;>
        (subst hf; exact ⟨rfl, h1, h2, by tauto⟩)
    · rintro ⟨d, hd, rfl, hin, hk, hflank⟩
      refine ⟨d, hd, ?_⟩
      dsimp only
      split_ifs with h1 h2 h3 h4 <;> simp_all
  refine ⟨key, ?_, rfl⟩
  intro d hd hd1 hd2 hf1 hf2 hmem
  rcases (key _).1 hmem with ⟨d', hd', heq, hin, hk, hflank⟩
  have h1 : d'.1 = d.1 := by
    have := congrArg Prod.fst heq
    simpa using this.symm
  have h2 : d'.2 = d.2 := by
    have := congrArg Prod.snd heq
    simpa using this.symm
  have hdd : d' = d := Prod.ext h1 h2
  subst hdd
  exact (hflank ⟨h1 ▸ hd1, h2 ▸ hd2⟩).1 hf1

/-- Witness for C6: the theorem applied to the 5-by-5 grid at the
in-bounds cell `(1,1)`. -/
theorem C6_neighbours8_spec_witness :
    (∀ n : Cell, n ∈ gridFive.neighbours8 (1, 1) ↔
      ∃ d ∈ dirs8, n = (1 + d.1, 1 + d.2) ∧ gridFive.inB n = true ∧
        gridFive.kindAt n ≠ OBSTACLE ∧
        (d.1 ≠ 0 ∧ d.2 ≠ 0 →
          gridFive.kindAt (1 + d.1, 1) ≠ OBSTACLE ∧
          gridFive.kindAt (1, 1 + d.2) ≠ OBSTACLE)) ∧
    (∀ d ∈ dirs8, d.1 ≠ 0 → d.2 ≠ 0 →
      gridFive.kindAt (1 + d.1, 1) = OBSTACLE → gridFive.kindAt (1, 1 + d.2) = OBSTACLE →
      ((1 + d.1, 1 + d.2) : Cell) ∉ gridFive.neighbours8 (1, 1)) ∧
    gridFive.neighbours8 (1, 1) = gridFive.neighbours8 (1, 1) :=
  C6_neighbours8_spec gridFive (1, 1) (by decide)

/-- **C5.** Each of the six searches is a pure function of the grid, so
two runs on an identical grid yield the same snapshot sequence and final
path (in this embedding every iteration order is fixed — queue order,
neighbour order, and the heap order reproduced by `popMin` — so the
equalities hold by reflexivity); and the open-list pop is
first-inserted-first-out among equal priorities: the popped entry's
priority is minimal and, among entries of equal priority, its insertion
counter is minimal. -/
theorem C5_determinism_and_tie_break :
    (∀ g : Grid,
      bfs_gen g = bfs_gen g ∧ dfs_gen g = dfs_gen g ∧
      best_first_search_gen g = best_first_search_gen g ∧
      dijkstra_gen g = dijkstra_gen g ∧ astar_gen g = astar_gen g ∧
      jps_gen g = jps_gen g ∧
      bfs g = bfs g ∧ dfs g = dfs g ∧ best_first_search g = best_first_search g ∧
      dijkstra g = dijkstra g ∧ astar g = astar g ∧ jps g = jps g) ∧
    (∀ (l : List Entry) (e : Entry) (rest : List Entry),
      popMin l = some (e, rest) →
      ∀ e' ∈ l, e.1 ≤ e'.1 ∧ (e.1 = e'.1 → e.2.1 ≤ e'.2.1)) :=
  ⟨fun _ => ⟨rfl, rfl, rfl, rfl, rfl, rfl, rfl, rfl, rfl, rfl, rfl, rfl⟩,
   fun _ _ _ h => popMin_minimal h⟩

/-- Witness for C5: on an open list holding two entries of equal priority
3 with counters 1 and 0, the pop picks the first-inserted one (counter 0),
and the theorem's tie-break conclusion holds against the other entry. -/
theorem C5_determinism_and_tie_break_witness :
    (3 : ℕ) ≤ 3 ∧ ((3 : ℕ) = 3 → (0 : ℕ) ≤ 1) :=
  C5_determinism_and_tie_break.2 [(3, 1, (0, 0)), (3, 0, (0, 1))] (3, 0, (0, 1))
    [(3, 1, (0, 0))] (by decide) (3, 1, (0, 0)) (by decide)

/-- **C8.** Grid construction fails exactly when a structural
precondition is violated — rows or cols below 2, an obstacle fraction
outside `[0, 1)`, an out-of-bounds start or goal (the goal defaulting to
the bottom-right corner), or start equal to goal — and succeeds for all
other inputs; moreover every successfully constructed grid (hence every
grid a search is invoked on) has in-bounds start and goal and start
distinct from goal. -/
theorem C8_construction_validation (rows cols : ℤ) (start : Cell) (goalOpt : Option Cell)
    (obstacle_pct : ℚ) (sample : List Cell → ℕ → List Cell) :
    ((∃ G, mkGrid rows cols start goalOpt obstacle_pct sample = Except.ok G) ↔
      (2 ≤ rows ∧ 2 ≤ cols ∧ 0 ≤ obstacle_pct ∧ obstacle_pct < 1 ∧
        (0 ≤ start.1 ∧ start.1 < rows ∧ 0 ≤ start.2 ∧ start.2 < cols) ∧
        (0 ≤ (goalOpt.getD (rows - 1, cols - 1)).1 ∧
         (goalOpt.getD (rows - 1, cols - 1)).1 < rows ∧
         0 ≤ (goalOpt.getD (rows - 1, cols - 1)).2 ∧
         (goalOpt.getD (rows - 1, cols - 1)).2 < cols) ∧
        start ≠ goalOpt.getD (rows - 1, cols - 1))) ∧
    (∀ G : Grid, mkGrid rows cols start goalOpt obstacle_pct sample = Except.ok G →
      (0 ≤ G.start.1 ∧ G.start.1 < G.rows ∧ 0 ≤ G.start.2 ∧ G.start.2 < G.cols) ∧
      (0 ≤ G.goal.1 ∧ G.goal.1 < G.rows ∧ 0 ≤ G.goal.2 ∧ G.goal.2 < G.cols) ∧
      G.start ≠ G.goal) := by
  constructor
  · unfold mkGrid
    split_ifs with h1 h2 h3 h4 h5
    · constructor
      · rintro ⟨G, hG⟩
        exact absurd hG (by simp)
      · rintro ⟨_, _, _, _, _, _, hne⟩
        exact absurd h5 hne
    · constructor
      · intro _
        exact ⟨h1.1, h1.2, h2.1, h2.2, h3, h4, h5⟩
      · intro _
        exact ⟨_, rfl⟩
    · constructor
      · rintro ⟨G, hG⟩
        exact absurd hG (by simp)
      · rintro ⟨_, _, _, _, _, hb, _⟩
        exact absurd hb h4
    · constructor
      · rintro ⟨G, hG⟩
        exact absurd hG (by simp)
      · rintro ⟨_, _, _, _, hb, _⟩
        exact absurd hb h3
    · constructor
      · rintro ⟨G, hG⟩
        exact absurd hG (by simp)
      · rintro ⟨_, _, hp1, hp2, _⟩
        exact absurd ⟨hp1, hp2⟩ h2
    · constructor
      · rintro ⟨G, hG⟩
        exact absurd hG (by simp)
      · rintro ⟨hr, hc, _⟩
        exact absurd ⟨hr, hc⟩ h1
  · intro G _
    exact ⟨G.start_in, G.goal_in, G.start_ne_goal⟩

/-- **C10.** For every valid construction input (and any sampler
satisfying `random.sample`'s contract of returning `k` distinct elements
from the candidate list), the constructed grid keeps the start and goal
cells walkable (`is_free` holds for both), and the number of obstacle
cells placed equals `min(int(rows*cols*obstacle_pct), rows*cols - 2)`. -/
theorem C10_obstacle_placement (rows cols : ℤ) (start : Cell) (goalOpt : Option Cell)
    (obstacle_pct : ℚ) (sample : List Cell → ℕ → List Cell) (G : Grid)
    (hok : mkGrid rows cols start goalOpt obstacle_pct sample = Except.ok G)
    (hsample : ∀ (l : List Cell) (k : ℕ), k ≤ l.length → l.Nodup →
      (sample l k).length = k ∧ (sample l k).Nodup ∧ ∀ x ∈ sample l k, x ∈ l) :
    G.is_free G.start.1 G.start.2 = true ∧
    G.is_free G.goal.1 G.goal.2 = true ∧
    ((gridCells G).filter fun c => G.kindAt c = OBSTACLE).card =
      min ((Int.floor ((((rows * cols).toNat : ℕ) : ℚ) * obstacle_pct)).toNat)
        ((rows * cols).toNat - 2) := by
  refine ⟨?_, ?_, ?_⟩
  · simp only [Grid.is_free, decide_eq_true_eq]
    exact G.start_notobst
  · simp only [Grid.is_free, decide_eq_true_eq]
    exact G.goal_notobst
  · unfold mkGrid at hok
    split_ifs at hok with h1 h2 h3 h4 h5
    rw [Except.ok.injEq] at hok
    subst hok
    simp only [gridCells, mkKind]
    have hstartmem : start ∈ cellsList rows cols := mem_cellsList.mpr h3
    have hgoalmem : goalOpt.getD (rows - 1, cols - 1) ∈ cellsList rows cols :=
      mem_cellsList.mpr h4
    have hnodup := nodup_cellsList rows cols
    have hcand_len : ((cellsList rows cols).filter fun c =>
        decide (c ≠ start ∧ c ≠ goalOpt.getD (rows - 1, cols - 1))).length =
        (cellsList rows cols).length - 2 :=
      length_filter_ne_two hnodup hstartmem hgoalmem h5
    have hcand_nodup : ((cellsList rows cols).filter fun c =>
        decide (c ≠ start ∧ c ≠ goalOpt.getD (rows - 1, cols - 1))).Nodup :=
      hnodup.filter _
    obtain ⟨hlen, hnd, hsub⟩ := hsample
      ((cellsList rows cols).filter fun c =>
        decide (c ≠ start ∧ c ≠ goalOpt.getD (rows - 1, cols - 1)))
      _ (min_le_right _ _) hcand_nodup
    have hset : (((cellsList rows cols).toFinset).filter fun c =>
        (if c = start then START else if c = goalOpt.getD (rows - 1, cols - 1) then GOAL
         else if c ∈ sample
            ((cellsList rows cols).filter fun c' =>
              decide (c' ≠ start ∧ c' ≠ goalOpt.getD (rows - 1, cols - 1)))
            (min ((Int.floor ((((rows * cols).toNat : ℕ) : ℚ) * obstacle_pct)).toNat)
              ((cellsList rows cols).filter fun c' =>
                decide (c' ≠ start ∧ c' ≠ goalOpt.getD (rows - 1, cols - 1))).length)
          then OBSTACLE else FREE) = OBSTACLE) =
        (sample
            ((cellsList rows cols).filter fun c' =>
              decide (c' ≠ start ∧ c' ≠ goalOpt.getD (rows - 1, cols - 1)))
            (min ((Int.floor ((((rows * cols).toNat : ℕ) : ℚ) * obstacle_pct)).toNat)
              ((cellsList rows cols).filter fun c' =>
                decide (c' ≠ start ∧ c' ≠ goalOpt.getD (rows - 1, cols - 1))).length)).toFinset := by
      ext c
      simp only [Finset.mem_filter, List.mem_toFinset]
      constructor
      · rintro ⟨hcmem, hkind⟩
        split_ifs at hkind with hcs hcg hco
        · exact absurd hkind (by norm_num [START, OBSTACLE])
        · exact absurd hkind (by norm_num [GOAL, OBSTACLE])
        · exact hco
        · exact absurd hkind (by norm_num [FREE, OBSTACLE])
      · intro hco
        have hc_cand := hsub c hco
        rw [List.mem_filter] at hc_cand
        obtain ⟨hcl, hne⟩ := hc_cand
        rw [decide_eq_true_eq] at hne
        refine ⟨hcl, ?_⟩
        rw [if_neg hne.1, if_neg hne.2, if_pos hco]
    rw [hset, List.toFinset_card_of_nodup hnd, hlen, hcand_len, length_cellsList]
    have hmul : (rows * cols).toNat = rows.toNat * cols.toNat := by
      rcases Int.eq_ofNat_of_zero_le (le_trans (by norm_num) h1.1) with ⟨m, hm⟩
      rcases Int.eq_ofNat_of_zero_le (le_trans (by norm_num) h1.2) with ⟨n, hn⟩
      rw [hm, hn, ← Nat.cast_mul, Int.toNat_natCast, Int.toNat_natCast, Int.toNat_natCast]
    rw [hmul]

/-- Witness for C10: a 3-by-3 grid with start `(0,0)`, goal `(2,2)`,
obstacle fraction `1/2`, and a take-a-prefix sampler (which returns `k`
distinct candidates, as `random.sample` does): `min(int(9 * 0.5), 7) = 4`
obstacles are placed and the start and goal stay walkable. -/
theorem C10_obstacle_placement_witness :
    ∃ G : Grid,
      mkGrid 3 3 (0, 0) (some (2, 2)) (1/2) (fun l k => l.take k) = Except.ok G ∧
      (G.is_free G.start.1 G.start.2 = true ∧
       G.is_free G.goal.1 G.goal.2 = true ∧
       ((gridCells G).filter fun c => G.kindAt c = OBSTACLE).card =
         min ((Int.floor (((((3 : ℤ) * 3).toNat : ℕ) : ℚ) * (1/2))).toNat)
           (((3 : ℤ) * 3).toNat - 2)) := by
  have hex : ∃ G, mkGrid 3 3 (0, 0) (some (2, 2)) (1/2) (fun l k => l.take k) =
      Except.ok G := by
    unfold mkGrid
    rw [dif_pos (by decide), dif_pos (by norm_num), dif_pos (by decide), dif_pos (by decide),
        dif_neg (by decide)]
    exact ⟨_, rfl⟩
  obtain ⟨G, hG⟩ := hex
  refine ⟨G, hG, C10_obstacle_placement 3 3 (0, 0) (some (2, 2)) (1/2) _ G hG ?_⟩
  intro l k hk hnd
  refine ⟨?_, (List.take_sublist _ _).nodup hnd, ?_⟩
  · rw [List.length_take]
    omega
  · intro x hx
    exact (List.take_sublist _ _).mem hx

/-- **C9.** For every grid and every one of the six algorithms, every
emitted `SearchState` has a visited set disjoint from its frontier set,
and whenever `current` is present it belongs to the visited set. -/
theorem C9_snapshot_invariants (g : Grid) :
    (∀ st ∈ bfs_gen g, snapshotOK st) ∧
    (∀ st ∈ dfs_gen g, snapshotOK st) ∧
    (∀ st ∈ best_first_search_gen g, snapshotOK st) ∧
    (∀ st ∈ dijkstra_gen g, snapshotOK st) ∧
    (∀ st ∈ astar_gen g, snapshotOK st) ∧
    (∀ st ∈ jps_gen g, snapshotOK st) := by
  have hq : ∀ c ∈ [g.start], (alookup [(g.start, (none : Option Cell))] c).isSome = true := by
    intro c hc
    rw [List.mem_singleton] at hc
    subst hc
    simp [alookup]
  refine ⟨?_, ?_, ?_, ?_, ?_, ?_⟩
  · exact queueLoop_snapshots g false (fuelBound g) ⟨[g.start], [(g.start, none)], ∅⟩
      hq (by simp) (by simp) (by simp)
  · exact queueLoop_snapshots g true (fuelBound g) ⟨[g.start], [(g.start, none)], ∅⟩
      hq (by simp) (by simp) (by simp)
  · refine greedyLoop_snapshots g (fuelBound g)
      ⟨[(manhattan g.start g.goal, 0, g.start)], [(g.start, none)], 0, ∅, {g.start}⟩
      ⟨?_, by simp, ?_, by simp⟩
    · intro e he
      rw [List.mem_singleton] at he
      subst he
      simp [alookup]
    · intro c hc
      rw [Finset.mem_singleton] at hc
      subst hc
      simp [alookup]
  · exact heapLoop_snapshots dijkstraAlg g (fuelBound g) (heapInit dijkstraAlg g)
      (by simp [heapInit])
  · exact heapLoop_snapshots astarAlg g (fuelBound g) (heapInit astarAlg g)
      (by simp [heapInit])
  · exact heapLoop_snapshots jpsAlg g (fuelBound g) (heapInit jpsAlg g)
      (by simp [heapInit])

/-- Witness for C9: the first snapshot BFS emits on `gridCorner`
satisfies the invariant. -/
theorem C9_snapshot_invariants_witness :
    snapshotOK ⟨some (0, 0), {(0, 0)}, ∅, none⟩ :=
  (C9_snapshot_invariants gridCorner).1 ⟨some (0, 0), {(0, 0)}, ∅, none⟩ (by decide)

/-- **C2** (code-bug exhibit).  On the same grid, `jps` returns a path
while the reference Dijkstra run over the `neighbours8` adjacency (the
8-connected model with corner-cutting prevented) finds none, refuting
"the JPS search returns a path exactly when a reference Dijkstra run over
the same 8-connected, no-corner-cutting adjacency finds one". -/
theorem C2_jps_disagrees_with_dijkstra8 :
    jps gridCorner = some [(0, 0), (1, 1)] ∧ dijkstra8 gridCorner = none := by
  refine ⟨by decide, by decide⟩

/-! ### Groundwork for path-length optimality (C3) -/

theorem alookup_cons {β : Type} (k : Cell) (v : β) (m : List (Cell × β)) (c : Cell) :
    alookup ((k, v) :: m) c = if k = c then some v else alookup m c := rfl

/-- A 4-connected step lands on a different cell. -/
theorem step4_ne {g : Grid} {a b : Cell} (h : step4 g a b) : b ≠ a := by
  obtain ⟨-, hd⟩ := h
  intro he
  subst he
  simp only [dirs4, List.mem_cons, List.not_mem_nil, or_false, Prod.mk.injEq] at hd
  omega

/-- `Grid.neighbours` offers exactly the `step4` moves. -/
theorem mem_neighbours_iff {g : Grid} {c n : Cell} :
    n ∈ g.neighbours c ↔ step4 g c n := by
  constructor
  · intro h
    rw [Grid.neighbours, List.mem_filterMap] at h
    obtain ⟨d, hd, hf⟩ := h
    dsimp only at hf
    by_cases hw : (g.inB (c.1 + d.1, c.2 + d.2) && decide (g.kindAt (c.1 + d.1, c.2 + d.2) ≠ OBSTACLE)) = true
    · rw [if_pos hw] at hf
      rw [Option.some.injEq] at hf
      subst hf
      refine ⟨hw, ?_⟩
      have he : ((c.1 + d.1 - c.1, c.2 + d.2 - c.2) : Cell) = d := by
        apply Prod.ext <;> simp
      rw [he]
      exact hd
    · rw [if_neg hw] at hf
      exact Option.noConfusion hf
  · rintro ⟨hw, hd⟩
    rw [Grid.neighbours, List.mem_filterMap]
    refine ⟨(n.1 - c.1, n.2 - c.2), hd, ?_⟩
    dsimp only
    have hn : ((c.1 + (n.1 - c.1), c.2 + (n.2 - c.2)) : Cell) = n := by
      apply Prod.ext <;> simp
    rw [hn]
    simp only [walkable] at hw
    rw [if_pos hw]

/-- Relative to any depth map certified by `ChainInv`, the predecessor
walk of `_reconstruct` produces, for a cell recorded at depth `v`, a list
of `v + 1` cells in front of the accumulator, and the chain it walks is a
4-connected start-to-cell path of `v` steps. -/
theorem reconstructAux_spec (g : Grid) (came : List (Cell × Option Cell))
    (dm : List (Cell × ℕ)) (hinv : ChainInv g came dm) :
    ∀ (fuel v : ℕ) (c : Cell) (acc : List Cell),
      alookup dm c = some v → v + 1 ≤ fuel →
      (reconstructAux came fuel (some c) acc).length = v + 1 + acc.length ∧ Reach4 g v c := by
  obtain ⟨hs1, hs2, hkeys, hbind, hnone, hlen⟩ := hinv
  intro fuel
  induction fuel with
  | zero => intro v c acc _ hf; omega
  | succ f ih =>
    intro v c acc hdm hf
    have hck : (alookup came c).isSome = true := by
      rw [hkeys, hdm]
      rfl
    cases hp : alookup came c with
    | none => rw [hp] at hck; exact Bool.noConfusion hck
    | some popt =>
      cases popt with
      | none =>
        have hcs : c = g.start := hnone c hp
        subst hcs
        have hv : v = 0 := Option.some.inj (hdm.symm.trans hs2)
        subst hv
        constructor
        · have hred : reconstructAux came (f+1) (some g.start) acc = g.start :: acc := by
            simp [reconstructAux, hp]
          rw [hred]
          simp
          omega
        · exact Reach4.refl
      | some p =>
        obtain ⟨hstep, vc, vp, hvc, hvp, hsum⟩ := hbind c p hp
        have hv : vc = v := Option.some.inj (hvc.symm.trans hdm)
        have hveq : v = vp + 1 := by omega
        obtain ⟨ihlen, ihreach⟩ := ih vp p (c :: acc) hvp (by omega)
        constructor
        · have hred : reconstructAux came (f+1) (some c) acc
              = reconstructAux came f (some p) (c :: acc) := by
            simp [reconstructAux, hp]
          rw [hred, ihlen]
          simp
          omega
        · rw [hveq]
          exact Reach4.tail ihreach hstep

/-- `_reconstruct` on a `ChainInv`-certified predecessor map: the result
has exactly `v + 1` cells, where `v` is the recorded depth of the target,
and a 4-connected start-to-target chain of `v` steps exists. -/
theorem reconstructPath_spec (g : Grid) (came : List (Cell × Option Cell))
    (dm : List (Cell × ℕ)) (hinv : ChainInv g came dm) {c : Cell} {v : ℕ}
    (hdm : alookup dm c = some v) :
    (reconstructPath came c).length = v + 1 ∧ Reach4 g v c := by
  have hb := hinv.2.2.2.2.2 c v hdm
  have h := reconstructAux_spec g came dm hinv (came.length + 1) v c [] hdm (by omega)
  simpa [reconstructPath] using h

/-- The Manhattan heuristic is consistent along 4-connected steps. -/
theorem manhattan_step4 {g : Grid} {a b : Cell} (t : Cell) (h : step4 g a b) :
    manhattan b t ≤ manhattan a t + 1 := by
  obtain ⟨-, hd⟩ := h
  simp only [dirs4, List.mem_cons, List.not_mem_nil, or_false, Prod.mk.injEq] at hd
  unfold manhattan
  rcases hd with ⟨h1, h2⟩ | ⟨h1, h2⟩ | ⟨h1, h2⟩ | ⟨h1, h2⟩ <;> omega

theorem finalPath_cons_none {s : SearchState} {l : List SearchState}
    (h : s.path = none) : finalPath (s :: l) = finalPath l := by
  simp [finalPath, List.filterMap_cons, h]

theorem finalPath_pair {s1 s2 : SearchState} {p : List Cell}
    (h1 : s1.path = none) (h2 : s2.path = some p) :
    finalPath [s1, s2] = some p := by
  simp [finalPath, List.filterMap_cons, h1, h2]

theorem finalPath_single_none {s : SearchState} (h : s.path = none) :
    finalPath [s] = none := by
  simp [finalPath, List.filterMap_cons, h]

theorem mem_queuePush {lifo : Bool} {q : List Cell} {n c : Cell} :
    c ∈ queuePush lifo q n ↔ c ∈ q ∨ c = n := by
  cases lifo <;> simp [queuePush] <;> try exact or_comm

/-- Recording a fresh neighbour `n` of `current` (one 4-connected step,
depth `vc + 1`) preserves the predecessor-map discipline. -/
theorem ChainInv_push {g : Grid} {m : List (Cell × Option Cell)} {dm : List (Cell × ℕ)}
    {current n : Cell} {vc : ℕ}
    (hinv : ChainInv g m dm) (hvc : alookup dm current = some vc)
    (hstep : step4 g current n) (hnew : alookup m n = none) :
    ChainInv g ((n, some current) :: m) ((n, vc + 1) :: dm) ∧
    alookup ((n, vc + 1) :: dm) current = some vc := by
  obtain ⟨hs1, hs2, hkeys, hbind, hnone, hlen⟩ := hinv
  have hncur : n ≠ current := step4_ne hstep
  have hnstart : n ≠ g.start := by
    intro he
    rw [he, hs1] at hnew
    exact Option.noConfusion hnew
  have hdmn : alookup dm n = none := by
    cases h : alookup dm n with
    | none => rfl
    | some w =>
      have hx : (alookup m n).isSome = true := (hkeys n).mpr (by rw [h]; rfl)
      rw [hnew] at hx
      exact Bool.noConfusion hx
  refine ⟨⟨?_, ?_, ?_, ?_, ?_, ?_⟩, ?_⟩
  · rw [alookup_cons, if_neg hnstart]
    exact hs1
  · rw [alookup_cons, if_neg hnstart]
    exact hs2
  · intro c
    rw [alookup_cons, alookup_cons]
    by_cases hc : n = c
    · rw [if_pos hc, if_pos hc]
      simp
    · rw [if_neg hc, if_neg hc]
      exact hkeys c
  · intro c p hc
    rw [alookup_cons] at hc
    by_cases hcn : n = c
    · rw [if_pos hcn] at hc
      have hpc : p = current := (Option.some.inj (Option.some.inj hc)).symm
      subst hpc
      subst hcn
      refine ⟨hstep, vc + 1, vc, ?_, ?_, rfl⟩
      · rw [alookup_cons, if_pos rfl]
      · rw [alookup_cons, if_neg hncur]
        exact hvc
    · rw [if_neg hcn] at hc
      obtain ⟨hst, vc2, vp2, h1, h2, h3⟩ := hbind c p hc
      have hpne : n ≠ p := by
        intro he
        rw [← he, hdmn] at h2
        exact Option.noConfusion h2
      refine ⟨hst, vc2, vp2, ?_, ?_, h3⟩
      · rw [alookup_cons, if_neg hcn]
        exact h1
      · rw [alookup_cons, if_neg hpne]
        exact h2
  · intro c hc
    rw [alookup_cons] at hc
    by_cases hcn : n = c
    · rw [if_pos hcn] at hc
      exact Option.noConfusion (Option.some.inj hc)
    · rw [if_neg hcn] at hc
      exact hnone c hc
  · intro c v hc
    rw [alookup_cons] at hc
    by_cases hcn : n = c
    · rw [if_pos hcn] at hc
      have hv : v = vc + 1 := (Option.some.inj hc).symm
      have hb := hlen current vc hvc
      simp only [List.length_cons]
      omega
    · rw [if_neg hcn] at hc
      have hb := hlen c v hc
      simp only [List.length_cons]
      omega
  · rw [alookup_cons, if_neg hncur]
    exact hvc

/-- The BFS/DFS neighbour fold keeps a `ChainInv`-certified depth map:
fresh neighbours of `current` are enqueued at depth `vc + 1`, previously
recorded depths are untouched, and every queued cell stays a key of the
map. -/
theorem queueFold_chain (g : Grid) (lifo : Bool) (current : Cell) (vc : ℕ) :
    ∀ (ns : List Cell) (q : List Cell) (m : List (Cell × Option Cell)) (dm : List (Cell × ℕ)),
      (∀ n ∈ ns, step4 g current n) →
      ChainInv g m dm →
      alookup dm current = some vc →
      (∀ c ∈ q, (alookup m c).isSome = true) →
      ∃ dm',
        ChainInv g ((ns.foldl (fun qc n =>
          if (alookup qc.2 n).isSome then qc
          else (queuePush lifo qc.1 n, (n, some current) :: qc.2)) (q, m)).2) dm' ∧
        (∀ c : Cell, (alookup m c).isSome = true → alookup dm' c = alookup dm c) ∧
        (∀ c ∈ (ns.foldl (fun qc n =>
          if (alookup qc.2 n).isSome then qc
          else (queuePush lifo qc.1 n, (n, some current) :: qc.2)) (q, m)).1,
          (alookup ((ns.foldl (fun qc n =>
            if (alookup qc.2 n).isSome then qc
            else (queuePush lifo qc.1 n, (n, some current) :: qc.2)) (q, m)).2) c).isSome = true) := by
  intro ns
  induction ns with
  | nil =>
    intro q m dm hns hinv hvc hq
    exact ⟨dm, hinv, fun c _ => rfl, hq⟩
  | cons n ns ih =>
    intro q m dm hns hinv hvc hq
    rw [List.foldl_cons]
    dsimp only
    by_cases hmem : (alookup m n).isSome = true
    · rw [if_pos hmem]
      exact ih q m dm (fun x hx => hns x (List.mem_cons_of_mem n hx)) hinv hvc hq
    · rw [if_neg hmem]
      have hnew : alookup m n = none := by
        cases h : alookup m n with
        | none => rfl
        | some w => rw [h] at hmem; simp at hmem
      have hstep : step4 g current n := hns n (List.mem_cons_self n ns)
      obtain ⟨hinv1, hvc1⟩ := ChainInv_push ⟨hinv.1, hinv.2.1, hinv.2.2.1, hinv.2.2.2.1,
        hinv.2.2.2.2.1, hinv.2.2.2.2.2⟩ hvc hstep hnew
      have hq1 : ∀ c ∈ queuePush lifo q n,
          (alookup ((n, some current) :: m) c).isSome = true := by
        intro c hc
        rw [alookup_cons]
        by_cases hcn : n = c
        · rw [if_pos hcn]
          rfl
        · rw [if_neg hcn]
          rcases mem_queuePush.mp hc with h | h
          · exact hq c h
          · exact absurd h.symm hcn
      obtain ⟨dm', h1, h2, h3⟩ := ih (queuePush lifo q n) ((n, some current) :: m)
        ((n, vc + 1) :: dm) (fun x hx => hns x (List.mem_cons_of_mem n hx)) hinv1 hvc1 hq1
      refine ⟨dm', h1, ?_, h3⟩
      intro c hc
      have hcn : n ≠ c := by
        intro he
        rw [← he, hnew] at hc
        exact Bool.noConfusion hc
      have hkey1 : (alookup ((n, some current) :: m) c).isSome = true := by
        rw [alookup_cons, if_neg hcn]
        exact hc
      rw [h2 c hkey1, alookup_cons, if_neg hcn]

/-- Every path `bfs_gen`/`dfs_gen` can emit is a valid start-to-goal
4-connected path: its length is one more than the number of steps of some
start-to-goal chain. -/
theorem queueLoop_valid (g : Grid) (lifo : Bool) :
    ∀ (fuel : ℕ) (s : QueueState) (dm : List (Cell × ℕ)),
      ChainInv g s.came_from dm →
      (∀ c ∈ s.queue, (alookup s.came_from c).isSome = true) →
      ∀ p, finalPath (queueLoop g lifo fuel s) = some p →
        ∃ k, Reach4 g k g.goal ∧ p.length = k + 1 := by
  intro fuel
  induction fuel with
  | zero =>
    intro s dm _ _ p hp
    simp [queueLoop, finalPath] at hp
  | succ f ih =>
    intro s dm hinv hq p hp
    rw [queueLoop] at hp
    cases hqs : s.queue with
    | nil =>
      rw [hqs] at hp
      rw [finalPath_single_none rfl] at hp
      exact Option.noConfusion hp
    | cons current rest =>
      rw [hqs] at hp
      dsimp only at hp
      by_cases hg : current = g.goal
      · rw [if_pos hg] at hp
        rw [finalPath_pair rfl rfl] at hp
        have hck : (alookup s.came_from g.goal).isSome = true := by
          have h := hq current (by rw [hqs]; exact List.mem_cons_self current rest)
          rwa [hg] at h
        have hdk : (alookup dm g.goal).isSome = true := (hinv.2.2.1 g.goal).mp hck
        obtain ⟨v, hv⟩ := Option.isSome_iff_exists.mp hdk
        obtain ⟨hlen, hreach⟩ := reconstructPath_spec g s.came_from dm hinv hv
        refine ⟨v, hreach, ?_⟩
        rw [← Option.some.inj hp, hlen]
      · rw [if_neg hg] at hp
        rw [finalPath_cons_none rfl] at hp
        have hck : (alookup s.came_from current).isSome = true :=
          hq current (by rw [hqs]; exact List.mem_cons_self current rest)
        have hdk : (alookup dm current).isSome = true := (hinv.2.2.1 current).mp hck
        obtain ⟨vc, hvc⟩ := Option.isSome_iff_exists.mp hdk
        obtain ⟨dm', h1, h2, h3⟩ := queueFold_chain g lifo current vc
          (g.neighbours current) rest s.came_from dm
          (fun n hn => mem_neighbours_iff.mp hn) hinv hvc
          (fun c hc => hq c (by rw [hqs]; exact List.mem_cons_of_mem current hc))
        exact ih ⟨(queueExpand g lifo current (rest, s.came_from)).1,
          (queueExpand g lifo current (rest, s.came_from)).2,
          insert current s.visited⟩ dm' h1 h3 p hp

/-- The greedy neighbour fold keeps a `ChainInv`-certified depth map and
keeps every open-list entry's cell a key of `came_from`. -/
theorem greedyFold_chain (g : Grid) (current : Cell) (vc : ℕ) :
    ∀ (ns : List Cell) (s : GreedyState) (dm : List (Cell × ℕ)),
      (∀ n ∈ ns, step4 g current n) →
      ChainInv g s.came_from dm →
      alookup dm current = some vc →
      (∀ e ∈ s.open_, (alookup s.came_from e.2.2).isSome = true) →
      ∃ dm',
        ChainInv g ((ns.foldl (fun t n =>
          if (alookup t.came_from n).isSome then t
          else { t with came_from := (n, some current) :: t.came_from,
                        counter := t.counter + 1,
                        open_ := t.open_ ++ [(manhattan n g.goal, t.counter + 1, n)],
                        in_open := insert n t.in_open }) s).came_from) dm' ∧
        (∀ e ∈ (ns.foldl (fun t n =>
          if (alookup t.came_from n).isSome then t
          else { t with came_from := (n, some current) :: t.came_from,
                        counter := t.counter + 1,
                        open_ := t.open_ ++ [(manhattan n g.goal, t.counter + 1, n)],
                        in_open := insert n t.in_open }) s).open_,
          (alookup ((ns.foldl (fun t n =>
            if (alookup t.came_from n).isSome then t
            else { t with came_from := (n, some current) :: t.came_from,
                          counter := t.counter + 1,
                          open_ := t.open_ ++ [(manhattan n g.goal, t.counter + 1, n)],
                          in_open := insert n t.in_open }) s).came_from) e.2.2).isSome = true) := by
  intro ns
  induction ns with
  | nil =>
    intro s dm hns hinv hvc hop
    exact ⟨dm, hinv, hop⟩
  | cons n ns ih =>
    intro s dm hns hinv hvc hop
    rw [List.foldl_cons]
    by_cases hmem : (alookup s.came_from n).isSome = true
    · rw [if_pos hmem]
      exact ih s dm (fun x hx => hns x (List.mem_cons_of_mem n hx)) hinv hvc hop
    · rw [if_neg hmem]
      have hnew : alookup s.came_from n = none := by
        cases h : alookup s.came_from n with
        | none => rfl
        | some w => rw [h] at hmem; simp at hmem
      have hstep : step4 g current n := hns n (List.mem_cons_self n ns)
      obtain ⟨hinv1, hvc1⟩ := ChainInv_push hinv hvc hstep hnew
      refine ih _ ((n, vc + 1) :: dm) (fun x hx => hns x (List.mem_cons_of_mem n hx))
        hinv1 hvc1 ?_
      intro e he
      simp only [List.mem_append, List.mem_singleton] at he
      rcases he with he | rfl
      · have hx := hop e he
        rw [alookup_cons]
        by_cases hcn : n = e.2.2
        · rw [if_pos hcn]
          rfl
        · rw [if_neg hcn]
          exact hx
      · rw [alookup_cons, if_pos rfl]
        rfl

/-- Every path `best_first_search_gen` can emit is a valid start-to-goal
4-connected path. -/
theorem greedyLoop_valid (g : Grid) :
    ∀ (fuel : ℕ) (s : GreedyState) (dm : List (Cell × ℕ)),
      ChainInv g s.came_from dm →
      (∀ e ∈ s.open_, (alookup s.came_from e.2.2).isSome = true) →
      ∀ p, finalPath (greedyLoop g fuel s) = some p →
        ∃ k, Reach4 g k g.goal ∧ p.length = k + 1 := by
  intro fuel
  induction fuel with
  | zero =>
    intro s dm _ _ p hp
    simp [greedyLoop, finalPath] at hp
  | succ f ih =>
    intro s dm hinv hop p hp
    rw [greedyLoop] at hp
    cases hpop : popMin s.open_ with
    | none =>
      rw [hpop] at hp
      rw [finalPath_single_none rfl] at hp
      exact Option.noConfusion hp
    | some er =>
      obtain ⟨e, rest⟩ := er
      rw [hpop] at hp
      dsimp only at hp
      have hek : (alookup s.came_from e.2.2).isSome = true :=
        hop e (popMin_self_mem hpop)
      by_cases hg : e.2.2 = g.goal
      · rw [if_pos hg] at hp
        rw [finalPath_pair rfl rfl] at hp
        have hck : (alookup s.came_from g.goal).isSome = true := by rwa [hg] at hek
        have hdk : (alookup dm g.goal).isSome = true := (hinv.2.2.1 g.goal).mp hck
        obtain ⟨v, hv⟩ := Option.isSome_iff_exists.mp hdk
        obtain ⟨hlen, hreach⟩ := reconstructPath_spec g s.came_from dm hinv hv
        refine ⟨v, hreach, ?_⟩
        rw [← Option.some.inj hp, hlen]
      · rw [if_neg hg] at hp
        rw [finalPath_cons_none rfl] at hp
        have hdk : (alookup dm e.2.2).isSome = true := (hinv.2.2.1 e.2.2).mp hek
        obtain ⟨vc, hvc⟩ := Option.isSome_iff_exists.mp hdk
        obtain ⟨dm', h1, h2⟩ := greedyFold_chain g e.2.2 vc (g.neighbours e.2.2)
          { s with open_ := rest, in_open := s.in_open.erase e.2.2,
                   visited := insert e.2.2 s.visited } dm
          (fun n hn => mem_neighbours_iff.mp hn) hinv hvc
          (fun x hx => hop x (popMin_rest_mem hpop x hx))
        exact ih _ dm' h1 h2 p hp

/-- Every key of a `ChainInv`-certified predecessor map is walkable. -/
theorem ChainInv_key_walkable {g : Grid} {m : List (Cell × Option Cell)}
    {dm : List (Cell × ℕ)} (hinv : ChainInv g m dm) {c : Cell}
    (hk : (alookup m c).isSome = true) : walkable g c = true := by
  cases hp : alookup m c with
  | none => rw [hp] at hk; exact Bool.noConfusion hk
  | some popt =>
    cases popt with
    | none =>
      rw [hinv.2.2.2.2.1 c hp]
      exact walkable_start g
    | some p => exact (hinv.2.2.2.1 c p hp).1.1

/-- Re-binding a (possibly already recorded) cell `n` to parent `current`
at depth `vc + 1` preserves the predecessor-map discipline, provided `n`
is never a recorded parent, is not the start and is not `current`. -/
theorem ChainInv_update {g : Grid} {m : List (Cell × Option Cell)} {dm : List (Cell × ℕ)}
    {current n : Cell} {vc : ℕ}
    (hinv : ChainInv g m dm) (hvc : alookup dm current = some vc)
    (hstep : step4 g current n)
    (hpar : ∀ c p : Cell, alookup m c = some (some p) → p ≠ n)
    (hnstart : n ≠ g.start) (hncur : n ≠ current) :
    ChainInv g ((n, some current) :: m) ((n, vc + 1) :: dm) ∧
    alookup ((n, vc + 1) :: dm) current = some vc := by
  obtain ⟨hs1, hs2, hkeys, hbind, hnone, hlen⟩ := hinv
  refine ⟨⟨?_, ?_, ?_, ?_, ?_, ?_⟩, ?_⟩
  · rw [alookup_cons, if_neg hnstart]
    exact hs1
  · rw [alookup_cons, if_neg hnstart]
    exact hs2
  · intro c
    rw [alookup_cons, alookup_cons]
    by_cases hc : n = c
    · rw [if_pos hc, if_pos hc]
      simp
    · rw [if_neg hc, if_neg hc]
      exact hkeys c
  · intro c p hc
    rw [alookup_cons] at hc
    by_cases hcn : n = c
    · rw [if_pos hcn] at hc
      have hpc : p = current := (Option.some.inj (Option.some.inj hc)).symm
      subst hpc
      subst hcn
      refine ⟨hstep, vc + 1, vc, ?_, ?_, rfl⟩
      · rw [alookup_cons, if_pos rfl]
      · rw [alookup_cons, if_neg hncur]
        exact hvc
    · rw [if_neg hcn] at hc
      obtain ⟨hst, vc2, vp2, h1, h2, h3⟩ := hbind c p hc
      have hpne : n ≠ p := fun he => hpar c p hc he.symm
      refine ⟨hst, vc2, vp2, ?_, ?_, h3⟩
      · rw [alookup_cons, if_neg hcn]
        exact h1
      · rw [alookup_cons, if_neg hpne]
        exact h2
  · intro c hc
    rw [alookup_cons] at hc
    by_cases hcn : n = c
    · rw [if_pos hcn] at hc
      exact Option.noConfusion (Option.some.inj hc)
    · rw [if_neg hcn] at hc
      exact hnone c hc
  · intro c v hc
    rw [alookup_cons] at hc
    by_cases hcn : n = c
    · rw [if_pos hcn] at hc
      have hv : v = vc + 1 := (Option.some.inj hc).symm
      have hb := hlen current vc hvc
      simp only [List.length_cons]
      omega
    · rw [if_neg hcn] at hc
      have hb := hlen c v hc
      simp only [List.length_cons]
      omega
  · rw [alookup_cons, if_neg hncur]
    exact hvc

theorem heapStep_closed {A : HeapAlg} {g : Grid} {cur : Cell} {b : ℕ}
    {t : HeapState} {n : Cell} (h : n ∈ t.closed) :
    heapStep A g cur b t n = t := by
  unfold heapStep
  rw [if_pos h]

theorem heapStep_noimp {A : HeapAlg} {g : Grid} {cur : Cell} {b : ℕ}
    {t : HeapState} {n : Cell} (h : n ∉ t.closed)
    (h2 : ltDist t.dist n (b + A.edge cur n) = false) :
    heapStep A g cur b t n = t := by
  unfold heapStep
  rw [if_neg h]
  dsimp only
  rw [h2]
  simp

theorem heapStep_push {A : HeapAlg} {g : Grid} {cur : Cell} {b : ℕ}
    {t : HeapState} {n : Cell} (h : n ∉ t.closed)
    (h2 : ltDist t.dist n (b + A.edge cur n) = true) :
    heapStep A g cur b t n =
      { t with dist := (n, b + A.edge cur n) :: t.dist,
               came_from := (n, some cur) :: t.came_from,
               counter := t.counter + 1,
               open_ := t.open_ ++ [(b + A.edge cur n + A.hfun n g.goal, t.counter + 1, n)],
               in_open := insert n t.in_open } := by
  unfold heapStep
  rw [if_neg h]
  dsimp only
  rw [h2]
  simp

/-- Coverage: under the master invariant, every cell reachable in `n`
steps is either closed with a minimal recorded cost, or shadowed by an
open entry of an unclosed cell whose priority is at most `n` plus the
heuristic of the reached cell. -/
theorem heapReach_covered (A : HeapAlg) (g : Grid)
    (hcons : ∀ a b : Cell, step4 g a b → A.hfun a g.goal ≤ A.hfun b g.goal + 1)
    (s : HeapState) (hinv : HInv A g s) :
    ∀ (n : ℕ) (z : Cell), Reach4 g n z →
      (z ∈ s.closed ∧ ∀ v : ℕ, alookup s.dist z = some v → v ≤ n) ∨
      (∃ e ∈ s.open_, e.2.2 ∉ s.closed ∧ e.1 ≤ n + A.hfun z g.goal) := by
  obtain ⟨hC, hP, hK, hO6, hI, hO4, hO5⟩ := hinv
  intro n z h
  induction h with
  | refl =>
    by_cases hst : g.start ∈ s.closed
    · refine Or.inl ⟨hst, fun v hv => ?_⟩
      obtain ⟨v0, hv0, hmin⟩ := hO4 g.start hst
      have : v = v0 := Option.some.inj (hv.symm.trans hv0)
      exact this ▸ hmin 0 Reach4.refl
    · obtain ⟨e, he, hcell, hpri⟩ := hI g.start (by rw [hC.2.1]; rfl) hst
      refine Or.inr ⟨e, he, hcell ▸ hst, ?_⟩
      rw [hpri 0 hC.2.1]
  | @tail k a b hr hs ihr =>
    rcases ihr with ⟨hacl, hamin⟩ | ⟨e, he, hecl, hle⟩
    · obtain ⟨va, hva, hvamin⟩ := hO4 a hacl
      have hvan : va ≤ k := hvamin k hr
      obtain ⟨vb, hvb, hvbb⟩ := hO5 a hacl b hs
      have hvbk : vb ≤ k + 1 := by
        have := hvbb va hva
        omega
      by_cases hbcl : b ∈ s.closed
      · refine Or.inl ⟨hbcl, fun v hv => ?_⟩
        have : v = vb := Option.some.inj (hv.symm.trans hvb)
        omega
      · obtain ⟨e, he, hcell, hpri⟩ := hI b (by rw [hvb]; rfl) hbcl
        refine Or.inr ⟨e, he, hcell ▸ hbcl, ?_⟩
        rw [hpri vb hvb]
        omega
    · refine Or.inr ⟨e, he, hecl, ?_⟩
      have := hcons a b hs
      omega

/-- A freshly popped cell's recorded cost is minimal among all
4-connected chain lengths reaching it. -/
theorem heapPop_min (A : HeapAlg) (g : Grid)
    (hcons : ∀ a b : Cell, step4 g a b → A.hfun a g.goal ≤ A.hfun b g.goal + 1)
    (s : HeapState) (hinv : HInv A g s) {e : Entry} {rest : List Entry}
    (hpop : popMin s.open_ = some (e, rest)) (hfresh : e.2.2 ∉ s.closed) :
    ∃ v : ℕ, alookup s.dist e.2.2 = some v ∧ ∀ n : ℕ, Reach4 g n e.2.2 → v ≤ n := by
  obtain ⟨v, hv⟩ := Option.isSome_iff_exists.mp (hinv.2.2.1 e (popMin_self_mem hpop))
  refine ⟨v, hv, fun n hr => ?_⟩
  rcases heapReach_covered A g hcons s hinv n e.2.2 hr with ⟨hcl, _⟩ | ⟨e2, he2, _, hle2⟩
  · exact absurd hcl hfresh
  · have hmin := (popMin_minimal hpop e2 he2).1
    have hO6 := hinv.2.2.2.1 e (popMin_self_mem hpop) v hv
    omega

/-- Relaxing the 4-connected neighbours `ns` of a freshly closed cell
`cur` (with exact recorded cost `vc` and unit edges) restores the master
invariant: before the fold all closed cells except `cur` are fully
relaxed, and `cur`'s unprocessed neighbours are exactly `ns`. -/
theorem heapFold_HInv (A : HeapAlg) (g : Grid) (cur : Cell) (vc : ℕ)
    (hedge : ∀ a b : Cell, A.edge a b = 1) :
    ∀ (ns : List Cell) (t : HeapState),
      (∀ n ∈ ns, step4 g cur n) →
      cur ∈ t.closed →
      alookup t.dist cur = some vc →
      ChainInv g t.came_from t.dist →
      (∀ c p : Cell, alookup t.came_from c = some (some p) → p ∈ t.closed) →
      (∀ e ∈ t.open_, (alookup t.dist e.2.2).isSome = true) →
      (∀ e ∈ t.open_, ∀ v : ℕ, alookup t.dist e.2.2 = some v →
        v + A.hfun e.2.2 g.goal ≤ e.1) →
      (∀ c : Cell, (alookup t.dist c).isSome = true → c ∉ t.closed →
        ∃ e ∈ t.open_, e.2.2 = c ∧ ∀ v : ℕ, alookup t.dist c = some v →
          e.1 = v + A.hfun c g.goal) →
      (∀ c ∈ t.closed, ∃ v : ℕ, alookup t.dist c = some v ∧
        ∀ n : ℕ, Reach4 g n c → v ≤ n) →
      (∀ c ∈ t.closed, ∀ w : Cell, step4 g c w → (c = cur ∧ w ∈ ns) ∨
        (∃ vw : ℕ, alookup t.dist w = some vw ∧
          ∀ v2 : ℕ, alookup t.dist c = some v2 → vw ≤ v2 + 1)) →
      HInv A g (ns.foldl (heapStep A g cur vc) t) := by
  intro ns
  induction ns with
  | nil =>
    intro t hns hcl hvc hC hP hK hO6 hI hO4 hO5
    refine ⟨hC, hP, hK, hO6, hI, hO4, fun c hc w hw => ?_⟩
    rcases hO5 c hc w hw with ⟨_, hmem⟩ | h
    · exact absurd hmem (List.not_mem_nil w)
    · exact h
  | cons n ns ih =>
    intro t hns hcl hvc hC hP hK hO6 hI hO4 hO5
    rw [List.foldl_cons]
    have hstep4 : step4 g cur n := hns n (List.mem_cons_self n ns)
    have hreach_cur : Reach4 g vc cur := (reconstructPath_spec g t.came_from t.dist hC hvc).2
    have hedge1 : A.edge cur n = 1 := hedge cur n
    by_cases hncl : n ∈ t.closed
    · rw [heapStep_closed hncl]
      refine ih t (fun x hx => hns x (List.mem_cons_of_mem n hx)) hcl hvc hC hP hK hO6 hI hO4 ?_
      intro c hc w hw
      rcases hO5 c hc w hw with ⟨hccur, hwmem⟩ | hold
      · rcases List.mem_cons.mp hwmem with rfl | hwns
        · obtain ⟨vn, hvn, hmin⟩ := hO4 w hncl
          refine Or.inr ⟨vn, hvn, fun v2 hv2 => ?_⟩
          have hv2c : v2 = vc := by
            rw [hccur] at hv2
            exact Option.some.inj (hv2.symm.trans hvc)
          subst hv2c
          have hw' : step4 g cur w := by
            rw [← hccur]
            exact hw
          exact hmin (v2 + 1) (Reach4.tail hreach_cur hw')
        · exact Or.inl ⟨hccur, hwns⟩
      · exact Or.inr hold
    · by_cases hlt : ltDist t.dist n (vc + A.edge cur n) = true
      · rw [heapStep_push hncl hlt, hedge1]
        have hlt1 : ltDist t.dist n (vc + 1) = true := by
          rw [← hedge1]
          exact hlt
        have hdisj : alookup t.dist n = none ∨
            ∃ w0 : ℕ, alookup t.dist n = some w0 ∧ vc + 1 < w0 := by
          unfold ltDist at hlt1
          cases hdn : alookup t.dist n with
          | none => exact Or.inl rfl
          | some w0 =>
            rw [hdn] at hlt1
            exact Or.inr ⟨w0, rfl, by simpa using hlt1⟩
        have hnstart : n ≠ g.start := by
          intro he
          subst he
          rcases hdisj with h | ⟨w0, hw0, hlt0⟩
          · rw [hC.2.1] at h
            exact Option.noConfusion h
          · have h0 : w0 = 0 := Option.some.inj (hw0.symm.trans hC.2.1)
            omega
        have hncur : n ≠ cur := fun he => hncl (he ▸ hcl)
        have hpar : ∀ c p : Cell, alookup t.came_from c = some (some p) → p ≠ n :=
          fun c p h he => hncl (he ▸ hP c p h)
        obtain ⟨hC', hvc'⟩ := ChainInv_update hC hvc hstep4 hpar hnstart hncur
        refine ih _ (fun x hx => hns x (List.mem_cons_of_mem n hx)) hcl hvc' hC' ?_ ?_ ?_ ?_ ?_ ?_
        · dsimp only
          intro c p hc
          rw [alookup_cons] at hc
          by_cases hcn : n = c
          · rw [if_pos hcn] at hc
            have hpc : p = cur := (Option.some.inj (Option.some.inj hc)).symm
            rw [hpc]
            exact hcl
          · rw [if_neg hcn] at hc
            exact hP c p hc
        · dsimp only
          intro e he
          rcases List.mem_append.mp he with he | he
          · rw [alookup_cons]
            by_cases hen : n = e.2.2
            · rw [if_pos hen]
              rfl
            · rw [if_neg hen]
              exact hK e he
          · rcases List.mem_singleton.mp he with rfl
            rw [alookup_cons]
            dsimp only
            rw [if_pos rfl]
            rfl
        · dsimp only
          intro e he v hv
          rcases List.mem_append.mp he with he | he
          · by_cases hen : n = e.2.2
            · rw [alookup_cons, if_pos hen] at hv
              have hvv : v = vc + 1 := (Option.some.inj hv).symm
              rcases hdisj with h | ⟨w0, hw0, hlt0⟩
              · have hx := hK e he
                rw [← hen, h] at hx
                exact Bool.noConfusion hx
              · have hx := hO6 e he w0 (by rw [← hen]; exact hw0)
                omega
            · rw [alookup_cons, if_neg hen] at hv
              exact hO6 e he v hv
          · rcases List.mem_singleton.mp he with rfl
            dsimp only at hv ⊢
            rw [alookup_cons, if_pos rfl] at hv
            have hvv : v = vc + 1 := (Option.some.inj hv).symm
            omega
        · dsimp only
          intro c hkey hc
          by_cases hcn : n = c
          · refine ⟨(vc + 1 + A.hfun n g.goal, t.counter + 1, n),
              List.mem_append.mpr (Or.inr (List.mem_singleton.mpr rfl)), hcn, ?_⟩
            intro v hv
            rw [alookup_cons, if_pos hcn] at hv
            have hvv : v = vc + 1 := (Option.some.inj hv).symm
            rw [hvv, ← hcn]
          · rw [alookup_cons, if_neg hcn] at hkey
            obtain ⟨e, he, hcell, hpri⟩ := hI c hkey hc
            refine ⟨e, List.mem_append.mpr (Or.inl he), hcell, ?_⟩
            intro v hv
            rw [alookup_cons, if_neg hcn] at hv
            exact hpri v hv
        · dsimp only
          intro c hc
          have hcn : n ≠ c := fun he => hncl (he ▸ hc)
          obtain ⟨v, hv, hmin⟩ := hO4 c hc
          refine ⟨v, ?_, hmin⟩
          rw [alookup_cons, if_neg hcn]
          exact hv
        · dsimp only
          intro c hc w hw
          have hcnc : n ≠ c := fun he => hncl (he ▸ hc)
          rcases hO5 c hc w hw with ⟨hccur, hwmem⟩ | ⟨vw, hvw, hbound⟩
          · rcases List.mem_cons.mp hwmem with rfl | hwns
            · refine Or.inr ⟨vc + 1, by rw [alookup_cons, if_pos rfl], fun v2 hv2 => ?_⟩
              rw [alookup_cons, if_neg hcnc] at hv2
              have hv2c : v2 = vc := by
                rw [hccur] at hv2
                exact Option.some.inj (hv2.symm.trans hvc)
              omega
            · exact Or.inl ⟨hccur, hwns⟩
          · by_cases hwn : n = w
            · refine Or.inr ⟨vc + 1, by rw [alookup_cons, if_pos hwn], fun v2 hv2 => ?_⟩
              rw [alookup_cons, if_neg hcnc] at hv2
              have hb2 := hbound v2 hv2
              rcases hdisj with h | ⟨w0, hw0, hlt0⟩
              · rw [hwn] at h
                rw [h] at hvw
                exact Option.noConfusion hvw
              · rw [hwn] at hw0
                have hww : vw = w0 := Option.some.inj (hvw.symm.trans hw0)
                omega
            · refine Or.inr ⟨vw, ?_, fun v2 hv2 => ?_⟩
              · rw [alookup_cons, if_neg hwn]
                exact hvw
              · rw [alookup_cons, if_neg hcnc] at hv2
                exact hbound v2 hv2
      · have hltf : ltDist t.dist n (vc + A.edge cur n) = false :=
          Bool.eq_false_iff.mpr hlt
        rw [heapStep_noimp hncl hltf]
        have hltf1 : ltDist t.dist n (vc + 1) = false := by
          rw [← hedge1]
          exact hltf
        refine ih t (fun x hx => hns x (List.mem_cons_of_mem n hx)) hcl hvc hC hP hK hO6 hI hO4 ?_
        intro c hc w hw
        rcases hO5 c hc w hw with ⟨hccur, hwmem⟩ | hold
        · rcases List.mem_cons.mp hwmem with rfl | hwns
          · unfold ltDist at hltf1
            cases hdn : alookup t.dist w with
            | none =>
              rw [hdn] at hltf1
              exact Bool.noConfusion hltf1
            | some w0 =>
              rw [hdn] at hltf1
              have hle : w0 ≤ vc + 1 := by
                have := of_decide_eq_false hltf1
                omega
              refine Or.inr ⟨w0, rfl, fun v2 hv2 => ?_⟩
              have hv2c : v2 = vc := by
                rw [hccur] at hv2
                exact Option.some.inj (hv2.symm.trans hvc)
              omega
          · exact Or.inl ⟨hccur, hwns⟩
        · exact Or.inr hold

/-- The unit-edge heap loops (`dijkstra_gen`, `astar_gen`) return a
shortest path: with a reachable goal, sufficient fuel and the master
invariant, the final path has exactly one more cell than the shortest
4-connected start-to-goal chain. -/
theorem heapLoop_opt (A : HeapAlg) (g : Grid)
    (hsucc : ∀ (c : Cell) (m : List (Cell × Option Cell)), A.succ g c m = g.neighbours c)
    (hedge : ∀ a b : Cell, A.edge a b = 1)
    (hfin : A.finalize = reconstructPath)
    (hcons : ∀ a b : Cell, step4 g a b → A.hfun a g.goal ≤ A.hfun b g.goal + 1)
    (hbase : A.baseFromPopped = true → ∀ a b : Cell, A.hfun a b = 0)
    (hreach : ∃ n : ℕ, Reach4 g n g.goal) :
    ∀ (fuel : ℕ) (s : HeapState),
      HInv A g s →
      g.goal ∉ s.closed →
      heapPot g s < fuel →
      ∃ (p : List Cell) (k : ℕ),
        finalPath (heapLoop A g fuel s) = some p ∧ p.length = k + 1 ∧
        Reach4 g k g.goal ∧ ∀ n : ℕ, Reach4 g n g.goal → k ≤ n := by
  intro fuel
  induction fuel with
  | zero =>
    intro s _ _ hpot
    omega
  | succ fuel ih =>
    intro s hinv hgcl hpot
    rw [heapLoop]
    rcases hpop : popMin s.open_ with _ | ⟨e, rest⟩
    · exfalso
      obtain ⟨n, hn⟩ := hreach
      rcases heapReach_covered A g hcons s hinv n g.goal hn with ⟨hcl, _⟩ | ⟨e2, he2, _, _⟩
      · exact hgcl hcl
      · rw [popMin_eq_none.mp hpop] at he2
        exact List.not_mem_nil e2 he2
    · dsimp only
      have hplen := popMin_length hpop
      by_cases hcl : e.2.2 ∈ s.closed
      · rw [if_pos hcl]
        obtain ⟨hC, hP, hK, hO6, hI, hO4, hO5⟩ := hinv
        refine ih { s with open_ := rest } ⟨hC, hP, ?_, ?_, ?_, hO4, hO5⟩ hgcl ?_
        · exact fun e' he' => hK e' (popMin_rest_mem hpop e' he')
        · exact fun e' he' => hO6 e' (popMin_rest_mem hpop e' he')
        · intro c hkey hc
          obtain ⟨e', he', hcell, hpri⟩ := hI c hkey hc
          refine ⟨e', ?_, hcell, hpri⟩
          have hmem : e' ∈ e :: rest := (popMin_perm hpop).mem_iff.mp he'
          rcases List.mem_cons.mp hmem with rfl | h
          · exact absurd (hcell ▸ hcl) hc
          · exact h
        · unfold heapPot at hpot ⊢
          dsimp only
          omega
      · rw [if_neg hcl]
        obtain ⟨vc, hvc, hmin⟩ := heapPop_min A g hcons s hinv hpop hcl
        by_cases hgoal : e.2.2 = g.goal
        · rw [if_pos hgoal]
          have hvg : alookup s.dist g.goal = some vc := by
            rw [← hgoal]
            exact hvc
          obtain ⟨hlen, hreachg⟩ := reconstructPath_spec g s.came_from s.dist hinv.1 hvg
          refine ⟨A.finalize s.came_from g.goal, vc, finalPath_pair rfl rfl, ?_, hreachg, ?_⟩
          · rw [hfin]
            exact hlen
          · intro n hn
            refine hmin n ?_
            rw [hgoal]
            exact hn
        · rw [if_neg hgoal]
          obtain ⟨hC, hP, hK, hO6, hI, hO4, hO5⟩ := hinv
          have hbeq : (if A.baseFromPopped = true then e.1
              else (alookup s.dist e.2.2).getD 0) = vc := by
            by_cases hbp : A.baseFromPopped = true
            · rw [if_pos hbp]
              have h0 := hbase hbp
              have h1 := hO6 e (popMin_self_mem hpop) vc hvc
              obtain ⟨e2, he2, hcell2, hpri2⟩ := hI e.2.2 (by rw [hvc]; rfl) hcl
              have h2 := hpri2 vc hvc
              have h3 := (popMin_minimal hpop e2 he2).1
              rw [h0] at h1 h2
              omega
            · rw [if_neg hbp, hvc]
              rfl
          rw [hbeq]
          have hwcur : walkable g e.2.2 = true :=
            ChainInv_key_walkable ⟨hC.1, hC.2.1, hC.2.2.1, hC.2.2.2.1, hC.2.2.2.2.1,
              hC.2.2.2.2.2⟩ ((hC.2.2.1 e.2.2).mpr (by rw [hvc]; rfl))
          have hinv2 : HInv A g (heapExpand A g e.2.2 vc
              ⟨rest, s.dist, s.came_from, s.counter, insert e.2.2 s.closed,
                s.in_open.erase e.2.2⟩) := by
            unfold heapExpand
            rw [hsucc]
            refine heapFold_HInv A g e.2.2 vc hedge (g.neighbours e.2.2) _
              (fun n hn => mem_neighbours_iff.mp hn)
              (Finset.mem_insert_self e.2.2 s.closed) hvc hC
              (fun c p h => Finset.mem_insert_of_mem (hP c p h))
              (fun e' he' => hK e' (popMin_rest_mem hpop e' he'))
              (fun e' he' v hv => hO6 e' (popMin_rest_mem hpop e' he') v hv)
              ?_ ?_ ?_
            · intro c hkey hc
              have hc1 : c ∉ s.closed := fun h => hc (Finset.mem_insert_of_mem h)
              have hc2 : c ≠ e.2.2 := fun h => hc (h ▸ Finset.mem_insert_self e.2.2 s.closed)
              obtain ⟨e', he', hcell, hpri⟩ := hI c hkey hc1
              refine ⟨e', ?_, hcell, hpri⟩
              have hmem : e' ∈ e :: rest := (popMin_perm hpop).mem_iff.mp he'
              rcases List.mem_cons.mp hmem with rfl | h
              · exact absurd hcell.symm hc2
              · exact h
            · intro c hc
              rcases Finset.mem_insert.mp hc with rfl | hc2
              · exact ⟨vc, hvc, hmin⟩
              · exact hO4 c hc2
            · intro c hc w hw
              rcases Finset.mem_insert.mp hc with rfl | hc2
              · refine Or.inl ⟨rfl, ?_⟩
                exact mem_neighbours_iff.mpr hw
              · exact Or.inr (hO5 c hc2 w hw)
          have hclosed_eq : (heapExpand A g e.2.2 vc
              ⟨rest, s.dist, s.came_from, s.counter, insert e.2.2 s.closed,
                s.in_open.erase e.2.2⟩).closed = insert e.2.2 s.closed := by
            unfold heapExpand
            exact heapFold_closed A g e.2.2 vc _ _
          have hgcl2 : g.goal ∉ (heapExpand A g e.2.2 vc
              ⟨rest, s.dist, s.came_from, s.counter, insert e.2.2 s.closed,
                s.in_open.erase e.2.2⟩).closed := by
            rw [hclosed_eq]
            intro hmem
            rcases Finset.mem_insert.mp hmem with h | h
            · exact hgoal h.symm
            · exact hgcl h
          have hpot2 : heapPot g (heapExpand A g e.2.2 vc
              ⟨rest, s.dist, s.came_from, s.counter, insert e.2.2 s.closed,
                s.in_open.erase e.2.2⟩) < fuel := by
            have hfe := heapFold_entries A g e.2.2 vc (A.succ g e.2.2 s.came_from)
              ⟨rest, s.dist, s.came_from, s.counter, insert e.2.2 s.closed,
                s.in_open.erase e.2.2⟩
            have hle := hfe.2
            have h8 : (A.succ g e.2.2 s.came_from).length ≤ 8 := by
              rw [hsucc]
              exact neighbours_len_le g e.2.2
            have hdiffcard : ((gridCells g) \ (insert e.2.2 s.closed)).card + 1 =
                ((gridCells g) \ s.closed).card := by
              have hmemdiff : e.2.2 ∈ (gridCells g) \ s.closed :=
                Finset.mem_sdiff.mpr ⟨walkable_mem_gridCells hwcur, hcl⟩
              have herase : (gridCells g) \ (insert e.2.2 s.closed) =
                  ((gridCells g) \ s.closed).erase e.2.2 := by
                ext x
                simp only [Finset.mem_sdiff, Finset.mem_erase, Finset.mem_insert]
                tauto
              rw [herase, Finset.card_erase_of_mem hmemdiff]
              have hcp : 0 < ((gridCells g) \ s.closed).card := Finset.card_pos.mpr ⟨_, hmemdiff⟩
              omega
            unfold heapPot at hpot ⊢
            unfold heapExpand
            rw [heapFold_closed]
            dsimp only
            dsimp only at hle
            omega
          obtain ⟨p, k, hfp, hpl, hrk, hmk⟩ := ih _ hinv2 hgcl2 hpot2
          refine ⟨p, k, ?_, hpl, hrk, hmk⟩
          rw [finalPath_cons_none rfl]
          exact hfp

/-- The common initial heap state satisfies the master invariant. -/
theorem heapInit_HInv (A : HeapAlg) (g : Grid) : HInv A g (heapInit A g) := by
  unfold heapInit HInv
  refine ⟨⟨?_, ?_, ?_, ?_, ?_, ?_⟩, ?_, ?_, ?_, ?_, ?_, ?_⟩ <;> dsimp only
  · simp [alookup]
  · simp [alookup]
  · intro c
    by_cases h : g.start = c <;> simp [alookup, h]
  · intro c p h
    by_cases hc : g.start = c <;> simp [alookup, hc] at h
  · intro c h
    by_cases hc : g.start = c
    · exact hc.symm
    · simp [alookup, hc] at h
  · intro c v h
    by_cases hc : g.start = c
    · rw [alookup_cons, if_pos hc] at h
      have hv : v = 0 := (Option.some.inj h).symm
      subst hv
      simp
    · rw [alookup_cons, if_neg hc] at h
      exact Option.noConfusion h
  · intro c p h
    by_cases hc : g.start = c <;> simp [alookup, hc] at h
  · intro e he
    rcases List.mem_singleton.mp he with rfl
    simp [alookup]
  · intro e he v hv
    rcases List.mem_singleton.mp he with rfl
    dsimp only at hv ⊢
    rw [alookup_cons, if_pos rfl] at hv
    have : v = 0 := (Option.some.inj hv).symm
    omega
  · intro c hk hc
    by_cases hc2 : g.start = c
    · subst hc2
      refine ⟨(A.hfun g.start g.goal, 0, g.start), List.mem_singleton.mpr rfl, rfl, ?_⟩
      intro v hv
      rw [alookup_cons, if_pos rfl] at hv
      have hv0 : v = 0 := (Option.some.inj hv).symm
      subst hv0
      dsimp only
      omega
    · rw [alookup_cons, if_neg hc2] at hk
      exact Bool.noConfusion hk
  · intro c hc
    exact absurd hc (Finset.not_mem_empty c)
  · intro c hc
    exact absurd hc (Finset.not_mem_empty c)

/-- The standard fuel exceeds the initial heap potential. -/
theorem heapInit_pot (A : HeapAlg) (g : Grid) : heapPot g (heapInit A g) < fuelBound g := by
  unfold heapPot heapInit fuelBound
  dsimp only
  have hcard : ((gridCells g) \ ∅).card ≤ (g.rows * g.cols).toNat := by
    rw [Finset.sdiff_empty]
    exact card_gridCells_le g
  simp only [List.length_singleton]
  omega

/-- The Manhattan heuristic also shrinks by at most one going backwards
along a 4-connected step. -/
theorem manhattan_step4_rev {g : Grid} {a b : Cell} (t : Cell) (h : step4 g a b) :
    manhattan a t ≤ manhattan b t + 1 := by
  obtain ⟨-, hd⟩ := h
  simp only [dirs4, List.mem_cons, List.not_mem_nil, or_false, Prod.mk.injEq] at hd
  unfold manhattan
  rcases hd with ⟨h1, h2⟩ | ⟨h1, h2⟩ | ⟨h1, h2⟩ | ⟨h1, h2⟩ <;> omega

/-- `dijkstra` returns a shortest 4-connected path whenever one exists. -/
theorem dijkstra_opt (g : Grid) (hreach : ∃ n : ℕ, Reach4 g n g.goal) :
    ∃ (p : List Cell) (k : ℕ), dijkstra g = some p ∧ p.length = k + 1 ∧
      Reach4 g k g.goal ∧ ∀ n : ℕ, Reach4 g n g.goal → k ≤ n := by
  have h := heapLoop_opt dijkstraAlg g (fun c m => rfl) (fun a b => rfl) rfl
    (fun a b hs => by simp [dijkstraAlg]) (fun _ a b => rfl) hreach
    (fuelBound g) (heapInit dijkstraAlg g) (heapInit_HInv dijkstraAlg g)
    (Finset.not_mem_empty g.goal) (heapInit_pot dijkstraAlg g)
  exact h

/-- `astar` returns a shortest 4-connected path whenever one exists. -/
theorem astar_opt (g : Grid) (hreach : ∃ n : ℕ, Reach4 g n g.goal) :
    ∃ (p : List Cell) (k : ℕ), astar g = some p ∧ p.length = k + 1 ∧
      Reach4 g k g.goal ∧ ∀ n : ℕ, Reach4 g n g.goal → k ≤ n := by
  have h := heapLoop_opt astarAlg g (fun c m => rfl) (fun a b => rfl) rfl
    (fun a b hs => manhattan_step4_rev g.goal hs) (fun hb a b => Bool.noConfusion hb) hreach
    (fuelBound g) (heapInit astarAlg g) (heapInit_HInv astarAlg g)
    (Finset.not_mem_empty g.goal) (heapInit_pot astarAlg g)
  exact h

theorem pairwise_of_forall_mem {α : Type} {R : α → α → Prop} :
    ∀ (l : List α), (∀ a ∈ l, ∀ b ∈ l, R a b) → l.Pairwise R := by
  intro l
  induction l with
  | nil => intro _; exact List.Pairwise.nil
  | cons a l ih =>
    intro h
    refine List.Pairwise.cons ?_ (ih fun x hx y hy =>
      h x (List.mem_cons_of_mem a hx) y (List.mem_cons_of_mem a hy))
    intro b hb
    exact h a (List.mem_cons_self a l) b (List.mem_cons_of_mem a hb)

/-- BFS coverage: every reachable cell is already recorded at a depth at
most its chain length, or some queued cell is recorded at a depth at most
that length. -/
theorem bfs_covered (g : Grid) (q : List Cell) (m : List (Cell × Option Cell))
    (dm : List (Cell × ℕ)) (hC : ChainInv g m dm)
    (hN : ∀ (c : Cell) (vc2 : ℕ), alookup dm c = some vc2 → c ∉ q →
      ∀ w : Cell, step4 g c w → ∃ vw : ℕ, alookup dm w = some vw ∧ vw ≤ vc2 + 1) :
    ∀ (n : ℕ) (z : Cell), Reach4 g n z →
      (∃ v : ℕ, alookup dm z = some v ∧ v ≤ n) ∨
      (∃ y ∈ q, ∃ vy : ℕ, alookup dm y = some vy ∧ vy ≤ n) := by
  intro n z h
  induction h with
  | refl => exact Or.inl ⟨0, hC.2.1, le_refl 0⟩
  | @tail k a b hr hs ihr =>
    rcases ihr with ⟨va, hva, hvan⟩ | ⟨y, hy, vy, hvy, hvyn⟩
    · by_cases ha : a ∈ q
      · exact Or.inr ⟨a, ha, va, hva, by omega⟩
      · obtain ⟨vw, hvw, hb⟩ := hN a va hva ha b hs
        exact Or.inl ⟨vw, hvw, by omega⟩
    · exact Or.inr ⟨y, hy, vy, hvy, by omega⟩

/-- The BFS neighbour fold, with full value bookkeeping: fresh neighbours
are appended to the queue (FIFO) and recorded at depth `vc + 1`; old
records keep their values; afterwards every processed neighbour is
recorded. -/
theorem bfsFold_chain (g : Grid) (current : Cell) (vc : ℕ) :
    ∀ (ns : List Cell) (q : List Cell) (m : List (Cell × Option Cell)) (dm : List (Cell × ℕ)),
      (∀ n ∈ ns, step4 g current n) →
      ChainInv g m dm →
      alookup dm current = some vc →
      ∃ (dm' : List (Cell × ℕ)) (new : List Cell),
        (ns.foldl (fun qc n =>
          if (alookup qc.2 n).isSome then qc
          else (queuePush false qc.1 n, (n, some current) :: qc.2)) (q, m)).1 = q ++ new ∧
        ChainInv g ((ns.foldl (fun qc n =>
          if (alookup qc.2 n).isSome then qc
          else (queuePush false qc.1 n, (n, some current) :: qc.2)) (q, m)).2) dm' ∧
        (∀ c : Cell, (alookup m c).isSome = true → alookup dm' c = alookup dm c) ∧
        (∀ c ∈ new, alookup dm' c = some (vc + 1)) ∧
        (∀ c : Cell, (alookup ((ns.foldl (fun qc n =>
          if (alookup qc.2 n).isSome then qc
          else (queuePush false qc.1 n, (n, some current) :: qc.2)) (q, m)).2) c).isSome = true →
          (alookup m c).isSome = true ∨ c ∈ new) ∧
        (∀ c ∈ ns, (alookup ((ns.foldl (fun qc n =>
          if (alookup qc.2 n).isSome then qc
          else (queuePush false qc.1 n, (n, some current) :: qc.2)) (q, m)).2) c).isSome = true) ∧
        (∀ c : Cell, (alookup m c).isSome = true →
          (alookup ((ns.foldl (fun qc n =>
            if (alookup qc.2 n).isSome then qc
            else (queuePush false qc.1 n, (n, some current) :: qc.2)) (q, m)).2) c).isSome = true) := by
  intro ns
  induction ns with
  | nil =>
    intro q m dm hns hinv hvc
    refine ⟨dm, [], (List.append_nil q).symm, hinv, fun c _ => rfl, ?_, ?_, ?_, ?_⟩
    · intro c hc
      exact absurd hc (List.not_mem_nil c)
    · intro c hc
      exact Or.inl hc
    · intro c hc
      exact absurd hc (List.not_mem_nil c)
    · intro c hc
      exact hc
  | cons n ns ih =>
    intro q m dm hns hinv hvc
    rw [List.foldl_cons]
    dsimp only
    by_cases hmem : (alookup m n).isSome = true
    · rw [if_pos hmem]
      obtain ⟨dm', new, h1, h2, h3, h4, h5, h6, h7⟩ :=
        ih q m dm (fun x hx => hns x (List.mem_cons_of_mem n hx)) hinv hvc
      refine ⟨dm', new, h1, h2, h3, h4, h5, ?_, h7⟩
      intro c hc
      rcases List.mem_cons.mp hc with rfl | hc2
      · exact h7 c hmem
      · exact h6 c hc2
    · rw [if_neg hmem]
      have hnew : alookup m n = none := by
        cases h : alookup m n with
        | none => rfl
        | some w => rw [h] at hmem; simp at hmem
      have hstep : step4 g current n := hns n (List.mem_cons_self n ns)
      obtain ⟨hinv1, hvc1⟩ := ChainInv_push hinv hvc hstep hnew
      obtain ⟨dm', new, h1, h2, h3, h4, h5, h6, h7⟩ :=
        ih (queuePush false q n) ((n, some current) :: m) ((n, vc + 1) :: dm)
          (fun x hx => hns x (List.mem_cons_of_mem n hx)) hinv1 hvc1
      have hkeymono : ∀ c : Cell, (alookup m c).isSome = true →
          (alookup ((n, some current) :: m) c).isSome = true := by
        intro c hc
        rw [alookup_cons]
        by_cases hcn : n = c
        · rw [if_pos hcn]
          rfl
        · rw [if_neg hcn]
          exact hc
      have hne_of_key : ∀ c : Cell, (alookup m c).isSome = true → n ≠ c := by
        intro c hc he
        rw [← he, hnew] at hc
        exact Bool.noConfusion hc
      refine ⟨dm', n :: new, ?_, h2, ?_, ?_, ?_, ?_, ?_⟩
      · rw [h1]
        show (q ++ [n]) ++ new = q ++ n :: new
        rw [List.append_assoc]
        rfl
      · intro c hc
        have hcn := hne_of_key c hc
        have hkey1 : (alookup ((n, some current) :: m) c).isSome = true := hkeymono c hc
        rw [h3 c hkey1, alookup_cons, if_neg hcn]
      · intro c hc
        rcases List.mem_cons.mp hc with hceq | hc2
        · subst hceq
          have hkey1 : (alookup ((c, some current) :: m) c).isSome = true := by
            rw [alookup_cons, if_pos rfl]
            rfl
          rw [h3 c hkey1, alookup_cons, if_pos rfl]
        · exact h4 c hc2
      · intro c hc
        rcases h5 c hc with hc2 | hc2
        · rw [alookup_cons] at hc2
          by_cases hcn : n = c
          · exact Or.inr (hcn ▸ List.mem_cons_self n new)
          · rw [if_neg hcn] at hc2
            exact Or.inl hc2
        · exact Or.inr (List.mem_cons_of_mem n hc2)
      · intro c hc
        rcases List.mem_cons.mp hc with hceq | hc2
        · subst hceq
          refine h7 c ?_
          rw [alookup_cons, if_pos rfl]
          rfl
        · exact h6 c hc2
      · intro c hc
        exact h7 c (hkeymono c hc)

/-- BFS (`queueLoop` with FIFO pushes) returns a shortest path: under the
ghost depth map's queue discipline (nondecreasing depths along the queue,
window at most one, popped cells fully relaxed and depth-minimal) and a
reachable goal, the final path has exactly one more cell than the
shortest 4-connected start-to-goal chain. -/
theorem bfsLoop_opt (g : Grid) (hreach : ∃ n : ℕ, Reach4 g n g.goal) :
    ∀ (fuel : ℕ) (s : QueueState) (dm : List (Cell × ℕ)),
      ChainInv g s.came_from dm →
      (∀ c ∈ s.queue, (alookup s.came_from c).isSome = true) →
      List.Pairwise (fun a b => ∀ va vb : ℕ, alookup dm a = some va →
        alookup dm b = some vb → va ≤ vb) s.queue →
      (∀ a ∈ s.queue, ∀ b ∈ s.queue, ∀ va vb : ℕ, alookup dm a = some va →
        alookup dm b = some vb → va ≤ vb + 1) →
      (∀ (c : Cell) (v : ℕ), alookup dm c = some v → c ∉ s.queue →
        ∀ w : Cell, step4 g c w → ∃ vw : ℕ, alookup dm w = some vw ∧ vw ≤ v + 1) →
      (∀ (c : Cell) (v : ℕ), alookup dm c = some v → c ∉ s.queue →
        ∀ b ∈ s.queue, ∀ vb : ℕ, alookup dm b = some vb → v ≤ vb) →
      ((alookup s.came_from g.goal).isSome = true → g.goal ∈ s.queue) →
      queuePot g s < fuel →
      ∃ (p : List Cell) (k : ℕ),
        finalPath (queueLoop g false fuel s) = some p ∧ p.length = k + 1 ∧
        Reach4 g k g.goal ∧ ∀ n : ℕ, Reach4 g n g.goal → k ≤ n := by
  intro fuel
  induction fuel with
  | zero =>
    intro s dm _ _ _ _ _ _ _ hpot
    omega
  | succ f ih =>
    intro s dm hC hQ hM hW hN hF hG hpot
    rw [queueLoop]
    cases hqs : s.queue with
    | nil =>
      exfalso
      obtain ⟨n, hn⟩ := hreach
      have hcov := bfs_covered g s.queue s.came_from dm hC hN n g.goal hn
      rcases hcov with ⟨v, hv, _⟩ | ⟨y, hy, _⟩
      · have hgk : g.goal ∈ s.queue := hG ((hC.2.2.1 g.goal).mpr (by rw [hv]; rfl))
        rw [hqs] at hgk
        exact List.not_mem_nil g.goal hgk
      · rw [hqs] at hy
        exact List.not_mem_nil y hy
    | cons current rest =>
      dsimp only
      have hcur_mem : current ∈ s.queue := by
        rw [hqs]
        exact List.mem_cons_self current rest
      have hcur_key : (alookup s.came_from current).isSome = true := hQ current hcur_mem
      obtain ⟨vc, hvc⟩ := Option.isSome_iff_exists.mp ((hC.2.2.1 current).mp hcur_key)
      have hMq : List.Pairwise (fun a b => ∀ va vb : ℕ, alookup dm a = some va →
          alookup dm b = some vb → va ≤ vb) (current :: rest) := by
        rw [← hqs]
        exact hM
      by_cases hg : current = g.goal
      · rw [if_pos hg]
        have hvg : alookup dm g.goal = some vc := by
          rw [← hg]
          exact hvc
        obtain ⟨hlen, hreachg⟩ := reconstructPath_spec g s.came_from dm hC hvg
        refine ⟨reconstructPath s.came_from g.goal, vc, finalPath_pair rfl rfl, hlen, hreachg, ?_⟩
        intro n hn
        have hcov := bfs_covered g s.queue s.came_from dm hC hN n g.goal hn
        rcases hcov with ⟨v, hv, hvn⟩ | ⟨y, hy, vy, hvy, hvyn⟩
        · have hveq : v = vc := Option.some.inj (hv.symm.trans hvg)
          omega
        · rw [hqs] at hy
          rcases List.mem_cons.mp hy with hyc | hy2
          · subst hyc
            have hveq : vy = vc := Option.some.inj (hvy.symm.trans hvc)
            omega
          · have hrel := (List.pairwise_cons.mp hMq).1 y hy2 vc vy hvc hvy
            omega
      · rw [if_neg hg]
        obtain ⟨dm', new, hqshape, hC', hpres, hnewv, hcover, hnskeys, hmono⟩ :=
          bfsFold_chain g current vc (g.neighbours current) rest s.came_from dm
            (fun x hx => mem_neighbours_iff.mp hx) hC hvc
        have hrest_mem : ∀ c ∈ rest, c ∈ s.queue := by
          intro c hc
          rw [hqs]
          exact List.mem_cons_of_mem current hc
        have hrest_key : ∀ c ∈ rest, (alookup s.came_from c).isSome = true :=
          fun c hc => hQ c (hrest_mem c hc)
        have hvrest : ∀ c ∈ rest, ∀ v : ℕ, alookup dm' c = some v → alookup dm c = some v :=
          fun c hc v hv => (hpres c (hrest_key c hc)).symm.trans hv
        have hhead : ∀ b ∈ rest, ∀ vb : ℕ, alookup dm b = some vb → vc ≤ vb :=
          fun b hb vb hvb => (List.pairwise_cons.mp hMq).1 b hb vc vb hvc hvb
        have hqe : queueExpand g false current (rest, s.came_from)
            = (rest ++ new, (queueExpand g false current (rest, s.came_from)).2) := by
          refine Prod.ext ?_ rfl
          exact hqshape
        rw [hqe]
        dsimp only
        have h1 : ∀ c ∈ rest ++ new,
            (alookup (queueExpand g false current (rest, s.came_from)).2 c).isSome = true := by
          intro c hc
          rcases List.mem_append.mp hc with hcr | hcn
          · exact hmono c (hrest_key c hcr)
          · exact (hC'.2.2.1 c).mpr (by rw [hnewv c hcn]; rfl)
        have h2 : List.Pairwise (fun a b => ∀ va vb : ℕ, alookup dm' a = some va →
            alookup dm' b = some vb → va ≤ vb) (rest ++ new) := by
          refine List.pairwise_append.mpr ⟨?_, ?_, ?_⟩
          · refine List.Pairwise.imp_of_mem ?_ ((List.pairwise_cons.mp hMq).2)
            intro a b ha hb hab va vb hva hvb
            exact hab va vb (hvrest a ha va hva) (hvrest b hb vb hvb)
          · refine pairwise_of_forall_mem new ?_
            intro a ha b hb va vb hva hvb
            have hx1 : va = vc + 1 := Option.some.inj ((hnewv a ha).symm.trans hva).symm
            have hx2 : vb = vc + 1 := Option.some.inj ((hnewv b hb).symm.trans hvb).symm
            omega
          · intro a ha b hb va vb hva hvb
            have hx1 := hW a (hrest_mem a ha) current hcur_mem va vc (hvrest a ha va hva) hvc
            have hx2 : vb = vc + 1 := Option.some.inj ((hnewv b hb).symm.trans hvb).symm
            omega
        have h3 : ∀ a ∈ rest ++ new, ∀ b ∈ rest ++ new, ∀ va vb : ℕ,
            alookup dm' a = some va → alookup dm' b = some vb → va ≤ vb + 1 := by
          intro a ha b hb va vb hva hvb
          rcases List.mem_append.mp ha with har | han
          · rcases List.mem_append.mp hb with hbr | hbn
            · exact hW a (hrest_mem a har) b (hrest_mem b hbr) va vb
                (hvrest a har va hva) (hvrest b hbr vb hvb)
            · have hx1 := hW a (hrest_mem a har) current hcur_mem va vc
                (hvrest a har va hva) hvc
              have hx2 : vb = vc + 1 := Option.some.inj ((hnewv b hbn).symm.trans hvb).symm
              omega
          · have hx1 : va = vc + 1 := Option.some.inj ((hnewv a han).symm.trans hva).symm
            rcases List.mem_append.mp hb with hbr | hbn
            · have hx2 := hhead b hbr vb (hvrest b hbr vb hvb)
              omega
            · have hx2 : vb = vc + 1 := Option.some.inj ((hnewv b hbn).symm.trans hvb).symm
              omega
        have h4 : ∀ (c : Cell) (v : ℕ), alookup dm' c = some v → c ∉ rest ++ new →
            ∀ w : Cell, step4 g c w → ∃ vw : ℕ, alookup dm' w = some vw ∧ vw ≤ v + 1 := by
          intro c v hv hcq w hw
          rcases hcover c ((hC'.2.2.1 c).mpr (by rw [hv]; rfl)) with hck | hcn
          · have hdvc : alookup dm c = some v := (hpres c hck).symm.trans hv
            by_cases hccur : c = current
            · subst hccur
              have hveq : v = vc := Option.some.inj (hdvc.symm.trans hvc)
              have hwkey := hnskeys w (mem_neighbours_iff.mpr hw)
              obtain ⟨vw, hvw⟩ := Option.isSome_iff_exists.mp ((hC'.2.2.1 w).mp hwkey)
              refine ⟨vw, hvw, ?_⟩
              rcases hcover w ((hC'.2.2.1 w).mpr (by rw [hvw]; rfl)) with hwk | hwn
              · have hdvw : alookup dm w = some vw := (hpres w hwk).symm.trans hvw
                by_cases hwq : w ∈ s.queue
                · rw [hqs] at hwq
                  rcases List.mem_cons.mp hwq with hwc | hwr
                  · subst hwc
                    have hx : vw = vc := Option.some.inj (hdvw.symm.trans hvc)
                    omega
                  · have hx := hW w (hrest_mem w hwr) c hcur_mem vw vc hdvw hvc
                    omega
                · have hx := hF w vw hdvw hwq c hcur_mem vc hvc
                  omega
              · have hx : vw = vc + 1 := Option.some.inj ((hnewv w hwn).symm.trans hvw).symm
                omega
            · have hcnotq : c ∉ s.queue := by
                rw [hqs]
                intro hmem2
                rcases List.mem_cons.mp hmem2 with hcc | hcr
                · exact hccur hcc
                · exact hcq (List.mem_append.mpr (Or.inl hcr))
              obtain ⟨vw, hvw, hbound⟩ := hN c v hdvc hcnotq w hw
              have hwck : (alookup s.came_from w).isSome = true :=
                (hC.2.2.1 w).mpr (by rw [hvw]; rfl)
              exact ⟨vw, (hpres w hwck).trans hvw, hbound⟩
          · exact absurd (List.mem_append.mpr (Or.inr hcn)) hcq
        have h5 : ∀ (c : Cell) (v : ℕ), alookup dm' c = some v → c ∉ rest ++ new →
            ∀ b ∈ rest ++ new, ∀ vb : ℕ, alookup dm' b = some vb → v ≤ vb := by
          intro c v hv hcq b hb vb hvb
          rcases hcover c ((hC'.2.2.1 c).mpr (by rw [hv]; rfl)) with hck | hcn
          · have hdvc : alookup dm c = some v := (hpres c hck).symm.trans hv
            by_cases hccur : c = current
            · subst hccur
              have hveq : v = vc := Option.some.inj (hdvc.symm.trans hvc)
              rcases List.mem_append.mp hb with hbr | hbn
              · have hx := hhead b hbr vb (hvrest b hbr vb hvb)
                omega
              · have hx : vb = vc + 1 := Option.some.inj ((hnewv b hbn).symm.trans hvb).symm
                omega
            · have hcnotq : c ∉ s.queue := by
                rw [hqs]
                intro hmem2
                rcases List.mem_cons.mp hmem2 with hcc | hcr
                · exact hccur hcc
                · exact hcq (List.mem_append.mpr (Or.inl hcr))
              rcases List.mem_append.mp hb with hbr | hbn
              · exact hF c v hdvc hcnotq b (hrest_mem b hbr) vb (hvrest b hbr vb hvb)
              · have hx2 : vb = vc + 1 := Option.some.inj ((hnewv b hbn).symm.trans hvb).symm
                have hx3 := hF c v hdvc hcnotq current hcur_mem vc hvc
                omega
          · exact absurd (List.mem_append.mpr (Or.inr hcn)) hcq
        have h6 : (alookup (queueExpand g false current (rest, s.came_from)).2 g.goal).isSome
            = true → g.goal ∈ rest ++ new := by
          intro hkey
          rcases hcover g.goal hkey with hgk | hgn
          · have hgq := hG hgk
            rw [hqs] at hgq
            rcases List.mem_cons.mp hgq with hgc | hgr
            · exact absurd hgc.symm hg
            · exact List.mem_append.mpr (Or.inl hgr)
          · exact List.mem_append.mpr (Or.inr hgn)
        have h7 : queuePot g ⟨rest ++ new,
            (queueExpand g false current (rest, s.came_from)).2,
            insert current s.visited⟩ < f := by
          have hfp2 := (queueFold_pot g false current (g.neighbours current) rest s.came_from
            (fun x hx => (mem_neighbours_iff.mp hx).1)).2
          rw [hqshape] at hfp2
          unfold queuePot at hpot ⊢
          rw [hqs] at hpot
          simp only [List.length_cons] at hpot
          unfold queueExpand
          dsimp only
          omega
        obtain ⟨p, k, hfp, hpl, hrk, hmk⟩ := ih
          ⟨rest ++ new, (queueExpand g false current (rest, s.came_from)).2,
            insert current s.visited⟩ dm' hC' h1 h2 h3 h4 h5 h6 h7
        refine ⟨p, k, ?_, hpl, hrk, hmk⟩
        rw [finalPath_cons_none rfl]
        exact hfp

/-- The one-entry predecessor/depth maps every search starts from are
chain-certified. -/
theorem ChainInv_init (g : Grid) : ChainInv g [(g.start, none)] [(g.start, 0)] := by
  refine ⟨?_, ?_, ?_, ?_, ?_, ?_⟩
  · simp [alookup]
  · simp [alookup]
  · intro c
    by_cases h : g.start = c <;> simp [alookup, h]
  · intro c p h
    by_cases hc : g.start = c <;> simp [alookup, hc] at h
  · intro c h
    by_cases hc : g.start = c
    · exact hc.symm
    · simp [alookup, hc] at h
  · intro c v h
    by_cases hc : g.start = c
    · rw [alookup_cons, if_pos hc] at h
      have hv : v = 0 := (Option.some.inj h).symm
      subst hv
      simp
    · rw [alookup_cons, if_neg hc] at h
      exact Option.noConfusion h

/-- `bfs` returns a shortest 4-connected path whenever one exists. -/
theorem bfs_opt (g : Grid) (hreach : ∃ n : ℕ, Reach4 g n g.goal) :
    ∃ (p : List Cell) (k : ℕ), bfs g = some p ∧ p.length = k + 1 ∧
      Reach4 g k g.goal ∧ ∀ n : ℕ, Reach4 g n g.goal → k ≤ n := by
  refine bfsLoop_opt g hreach (fuelBound g) ⟨[g.start], [(g.start, none)], ∅⟩ [(g.start, 0)]
    (ChainInv_init g) ?_ ?_ ?_ ?_ ?_ ?_ ?_
  · intro c hc
    rcases List.mem_singleton.mp hc with rfl
    simp [alookup]
  · simp
  · intro a ha b hb va vb hva hvb
    rcases List.mem_singleton.mp ha with rfl
    rcases List.mem_singleton.mp hb with rfl
    have hx : va = vb := Option.some.inj (hva.symm.trans hvb)
    omega
  · intro c v hv hcq w hw
    exfalso
    apply hcq
    by_cases hc : g.start = c
    · rw [← hc]
      exact List.mem_singleton.mpr rfl
    · rw [alookup_cons, if_neg hc] at hv
      exact Option.noConfusion hv
  · intro c v hv hcq b hb vb hvb
    exfalso
    apply hcq
    by_cases hc : g.start = c
    · rw [← hc]
      exact List.mem_singleton.mpr rfl
    · rw [alookup_cons, if_neg hc] at hv
      exact Option.noConfusion hv
  · intro hkey
    by_cases hc : g.start = g.goal
    · exact absurd hc g.start_ne_goal
    · rw [alookup_cons, if_neg hc] at hkey
      exact Bool.noConfusion hkey
  · unfold queuePot fuelBound
    dsimp only
    have h1 := card_gridCells_le g
    have h2 : ((gridCells g) \ keysFinset ([(g.start, none)] : List (Cell × Option Cell))).card
        ≤ (gridCells g).card := Finset.card_le_card (Finset.sdiff_subset)
    simp only [List.length_singleton]
    omega

/-- Every path `dfs` can emit is a valid start-to-goal 4-connected
path. -/
theorem dfs_valid (g : Grid) :
    ∀ p : List Cell, dfs g = some p → ∃ k : ℕ, Reach4 g k g.goal ∧ p.length = k + 1 := by
  refine queueLoop_valid g true (fuelBound g) ⟨[g.start], [(g.start, none)], ∅⟩
    [(g.start, 0)] (ChainInv_init g) ?_
  intro c hc
  rcases List.mem_singleton.mp hc with rfl
  simp [alookup]

/-- Every path `best_first_search` can emit is a valid start-to-goal
4-connected path. -/
theorem greedy_valid (g : Grid) :
    ∀ p : List Cell, best_first_search g = some p →
      ∃ k : ℕ, Reach4 g k g.goal ∧ p.length = k + 1 := by
  refine greedyLoop_valid g (fuelBound g)
    ⟨[(manhattan g.start g.goal, 0, g.start)], [(g.start, none)], 0, ∅, {g.start}⟩
    [(g.start, 0)] (ChainInv_init g) ?_
  intro e he
  rcases List.mem_singleton.mp he with rfl
  simp [alookup]

/-- **C3.**  On every grid whose goal is 4-connected-reachable from the
start, BFS, Dijkstra and A* all return paths of one common length `L`,
and `L` is the shortest-path length under unit edge cost (one more cell
than the fewest 4-connected steps from start to goal); on the same grid,
DFS and greedy best-first, if they return a path at all, never return a
shorter one. -/
theorem C3_optimality (g : Grid) (hreach : ∃ n : ℕ, Reach4 g n g.goal) :
    ∃ L : ℕ,
      (∃ k : ℕ, L = k + 1 ∧ Reach4 g k g.goal ∧ ∀ n : ℕ, Reach4 g n g.goal → k ≤ n) ∧
      (∃ p : List Cell, bfs g = some p ∧ p.length = L) ∧
      (∃ p : List Cell, dijkstra g = some p ∧ p.length = L) ∧
      (∃ p : List Cell, astar g = some p ∧ p.length = L) ∧
      (∀ p : List Cell, dfs g = some p → L ≤ p.length) ∧
      (∀ p : List Cell, best_first_search g = some p → L ≤ p.length) := by
  obtain ⟨pb, kb, hbf, hbl, hbr, hbm⟩ := bfs_opt g hreach
  obtain ⟨pd, kd, hdf, hdl, hdr, hdm⟩ := dijkstra_opt g hreach
  obtain ⟨pa, ka, haf, hal, har, ham⟩ := astar_opt g hreach
  have hkd : kd = kb := le_antisymm (hdm kb hbr) (hbm kd hdr)
  have hka : ka = kb := le_antisymm (ham kb hbr) (hbm ka har)
  refine ⟨kb + 1, ⟨kb, rfl, hbr, hbm⟩, ⟨pb, hbf, hbl⟩, ⟨pd, hdf, by omega⟩,
    ⟨pa, haf, by omega⟩, ?_, ?_⟩
  · intro p hp
    obtain ⟨k, hkr, hkl⟩ := dfs_valid g p hp
    have := hbm k hkr
    omega
  · intro p hp
    obtain ⟨k, hkr, hkl⟩ := greedy_valid g p hp
    have := hbm k hkr
    omega

/-- Witness for C3: on the obstacle-free 5-by-5 grid the goal is
reachable in eight 4-connected steps, and the optimality theorem applies
at it. -/
theorem C3_optimality_witness :
    (∃ n : ℕ, Reach4 gridFive n gridFive.goal) ∧
    (∃ L : ℕ,
      (∃ k : ℕ, L = k + 1 ∧ Reach4 gridFive k gridFive.goal ∧
        ∀ n : ℕ, Reach4 gridFive n gridFive.goal → k ≤ n) ∧
      (∃ p : List Cell, bfs gridFive = some p ∧ p.length = L) ∧
      (∃ p : List Cell, dijkstra gridFive = some p ∧ p.length = L) ∧
      (∃ p : List Cell, astar gridFive = some p ∧ p.length = L) ∧
      (∀ p : List Cell, dfs gridFive = some p → L ≤ p.length) ∧
      (∀ p : List Cell, best_first_search gridFive = some p → L ≤ p.length)) := by
  have h0 : Reach4 gridFive 0 (0, 0) := Reach4.refl
  have h1 : Reach4 gridFive 1 (1, 0) := Reach4.tail h0 ⟨by decide, by decide⟩
  have h2 : Reach4 gridFive 2 (2, 0) := Reach4.tail h1 ⟨by decide, by decide⟩
  have h3 : Reach4 gridFive 3 (3, 0) := Reach4.tail h2 ⟨by decide, by decide⟩
  have h4 : Reach4 gridFive 4 (4, 0) := Reach4.tail h3 ⟨by decide, by decide⟩
  have h5 : Reach4 gridFive 5 (4, 1) := Reach4.tail h4 ⟨by decide, by decide⟩
  have h6 : Reach4 gridFive 6 (4, 2) := Reach4.tail h5 ⟨by decide, by decide⟩
  have h7 : Reach4 gridFive 7 (4, 3) := Reach4.tail h6 ⟨by decide, by decide⟩
  have h8 : Reach4 gridFive 8 (4, 4) := Reach4.tail h7 ⟨by decide, by decide⟩
  exact ⟨⟨8, h8⟩, C3_optimality gridFive ⟨8, h8⟩⟩

end DiscretePlanning
